import Mathlib

/-!
Verification development for the term-aware chunked translation pipeline of
the medicalterm-plus repository.

Strings are modelled as lists of Unicode characters (one element per UTF-16
code unit of the source's JavaScript strings; all characters appearing here
are in the basic multilingual plane, where the two notions agree).  Pure
functions of the source are translated into Lean functions; the LLM network
calls of the orchestrator are modelled by oracle parameters giving the
outcome of each call, and the retry loop of the completion wrapper is
modelled by an oracle giving the outcome of each attempt.

Sources embedded:
  - translationChunkUtils: getTokenCount, calculateChunkSize,
    splitSegmentRecursively, regroupChunks, splitTextIntoChunks
  - textProcessing: normalizeKey, findMatches, buildTermSegments,
    alignTermsWithLLM (structural part), translateText (orchestration)
  - llm: isQuotaError, getCompletion (retry structure)
-/

set_option maxHeartbeats 1000000

/-- Strings of the source are modelled as lists of characters. -/
abbrev Str := List Char

/-- Character class of the source's CJK regex
[一-龥　-〿＀-￯]. -/
def isCJKChar (c : Char) : Bool :=
  (0x4e00 ≤ c.toNat && c.toNat ≤ 0x9fa5) ||
  (0x3000 ≤ c.toNat && c.toNat ≤ 0x303f) ||
  (0xff00 ≤ c.toNat && c.toNat ≤ 0xffef)

/-- JavaScript word character class \w, that is [A-Za-z0-9_]. -/
def isWordChar (c : Char) : Bool :=
  (0x61 ≤ c.toNat && c.toNat ≤ 0x7a) ||
  (0x41 ≤ c.toNat && c.toNat ≤ 0x5a) ||
  (0x30 ≤ c.toNat && c.toNat ≤ 0x39) ||
  c.toNat = 0x5f

/-- JavaScript whitespace class \s (space, tab, line terminators, and the
Unicode space separators). -/
def isSpaceChar (c : Char) : Bool :=
  (0x09 ≤ c.toNat && c.toNat ≤ 0x0d) ||
  c.toNat = 0x20 || c.toNat = 0xa0 || c.toNat = 0x1680 ||
  (0x2000 ≤ c.toNat && c.toNat ≤ 0x200a) ||
  c.toNat = 0x2028 || c.toNat = 0x2029 || c.toNat = 0x202f ||
  c.toNat = 0x205f || c.toNat = 0x3000 || c.toNat = 0xfeff

/-- Model of JavaScript toLowerCase on the characters that occur in
dictionary keys and scanned text: ASCII letters are lowered, every other
character is unchanged. -/
def lowerChar (c : Char) : Char :=
  if 0x41 ≤ c.toNat && c.toNat ≤ 0x5a then Char.ofNat (c.toNat + 32) else c

/-- Counts maximal runs of characters satisfying p; the flag records whether
the previous character was inside such a run.  Started with the flag false
this is the number of words produced by trim + split on whitespace + filter
nonempty in getTokenCount. -/
def countRuns (p : Char → Bool) : Str → Bool → Nat
  | [], _ => 0
  | c :: rest, inRun =>
    if p c then (if inRun then 0 else 1) + countRuns p rest true
    else countRuns p rest false

/-- Character-wise image of the source's two replace passes in
getTokenCount: CJK characters become a space, then every character that is
neither a word character nor whitespace becomes a space. -/
def normalizeForWords (text : Str) : Str :=
  text.map (fun c =>
    if isCJKChar c then ' '
    else if isWordChar c || isSpaceChar c then c else ' ')

/-- Token estimator getTokenCount: CJK characters weigh 1.5 tokens, the
remaining whitespace-separated words weigh 1.3 tokens, and the sum is
rounded up.  The weights are modelled exactly as the rationals 3/2 and
13/10, so the rounded-up sum is (15 * cjk + 13 * words + 9) / 10 in natural
division. -/
def getTokenCount (text : Str) : Nat :=
  if text = [] then 0
  else
    (15 * (text.filter isCJKChar).length +
     13 * countRuns (fun c => !isSpaceChar c) (normalizeForWords text) false + 9) / 10

/-- Even chunk-size distribution calculateChunkSize. -/
def calculateChunkSize (totalTokens : Nat) (targetPerChunk : Nat) : Nat :=
  if totalTokens ≤ targetPerChunk then totalTokens
  else
    max 1 ((totalTokens + (totalTokens + targetPerChunk - 1) / targetPerChunk - 1) /
           ((totalTokens + targetPerChunk - 1) / targetPerChunk))

/-- Sentence delimiters of splitSegmentRecursively: . ? ! 。 ？ ！ -/
def isSentenceDelim (c : Char) : Bool :=
  c = '.' || c = '?' || c = '!' ||
  c.toNat = 0x3002 || c.toNat = 0xff1f || c.toNat = 0xff01

/-- Clause delimiters of splitSegmentRecursively: ; , ， ； -/
def isClauseDelim (c : Char) : Bool :=
  c = ';' || c = ',' || c.toNat = 0xff0c || c.toNat = 0xff1b

/-- Paragraph delimiter of splitTextIntoChunks: the newline character. -/
def isNewlineChar (c : Char) : Bool := c = '\n'

/-- Splits a list into its maximal leading run of characters satisfying p
and the remainder. -/
def takeRun (p : Char → Bool) : Str → Str × Str
  | [] => ([], [])
  | c :: rest =>
    if p c then
      let r := takeRun p rest
      (c :: r.1, r.2)
    else ([], c :: rest)

/-- Model of JavaScript String.split with a captured one-or-more-delimiters
group: the result alternates pieces (possibly empty at the ends) and maximal
nonempty delimiter runs, starting and ending with a piece.  Written as a
structural right fold so that it reduces inside the kernel: a delimiter
character either extends the delimiter run that directly follows it or opens
a new run preceded by an empty piece, and any other character extends the
first piece. -/
def splitCapture (isDelim : Char → Bool) : Str → List Str
  | [] => [[]]
  | c :: rest =>
    let r := splitCapture isDelim rest
    if isDelim c then
      match r with
      | [] :: drun :: tail => [] :: (c :: drun) :: tail
      | _ => [] :: (c :: []) :: r
    else
      match r with
      | p :: tail => (c :: p) :: tail
      | [] => [(c :: [])]

/-- Reducer that re-attaches each captured delimiter run to the preceding
piece, used for sentence and clause splitting in splitSegmentRecursively.
A delimiter run with no preceding piece in the accumulator is dropped, and
empty strings are skipped, exactly as in the source's reduce. -/
def appendToLast : List Str → Str → List Str
  | [], _ => []
  | [x], curr => [x ++ curr]
  | x :: y :: rest, curr => x :: appendToLast (y :: rest) curr

/-- Sentence and clause variant of the split reducer, written as an
explicit left fold over the split pieces. -/
def attachDelimsGo (isDelim : Char → Bool) (acc : List Str) : List Str → List Str
  | [] => acc
  | curr :: rest =>
    attachDelimsGo isDelim
      (if !curr.isEmpty && curr.all isDelim then appendToLast acc curr
       else if !curr.isEmpty then acc ++ [curr]
       else acc)
      rest

def attachDelims (isDelim : Char → Bool) (parts : List Str) : List Str :=
  attachDelimsGo isDelim [] parts

/-- Paragraph variant of the split reducer in splitTextIntoChunks: a
delimiter run at index > 0 with an empty accumulator is kept (leading
newlines), rather than dropped. -/
def attachDelimsKeepLeadingGo (isDelim : Char → Bool) (acc : List Str)
    (idx : Nat) : List Str → List Str
  | [] => acc
  | curr :: rest =>
    attachDelimsKeepLeadingGo isDelim
      (if idx > 0 && !curr.isEmpty && curr.all isDelim then
        (match acc with
         | [] => [curr]
         | _ :: _ => appendToLast acc curr)
      else if !curr.isEmpty then acc ++ [curr]
      else acc)
      (idx + 1) rest

def attachDelimsKeepLeading (isDelim : Char → Bool) (parts : List Str) : List Str :=
  attachDelimsKeepLeadingGo isDelim [] 0 parts

/-- Loop body of regroupChunks: groups the given parts into maximal chunks
whose token estimate stays within the limit, recursively splitting any
single part that exceeds the limit on its own via the given splitter. -/
def regroupChunksGo (split : Str → List Str) (maxLimit : Nat)
    (chunks : List Str) (current : Str) : List Str → List Str
  | [] => if current ≠ [] then chunks ++ [current] else chunks
  | part :: rest =>
    if getTokenCount (current ++ part) ≤ maxLimit then
      regroupChunksGo split maxLimit chunks (current ++ part) rest
    else
      regroupChunksGo split maxLimit
        ((if current ≠ [] then chunks ++ [current] else chunks) ++
          (if getTokenCount part > maxLimit then split part else []))
        (if getTokenCount part > maxLimit then [] else part)
        rest

/-- Helper regroupChunks of the source, parameterized by the recursive
splitter so that the fuel-indexed recursion below stays structural. -/
def regroupChunks (split : Str → List Str) (parts : List Str) (maxLimit : Nat) :
    List Str :=
  regroupChunksGo split maxLimit [] [] parts

/-- Recursive segment splitter splitSegmentRecursively, indexed by fuel.
The source recursion terminates because every recursive call is on a
strictly shorter string; fuel at least the length of the text makes the
fuel-exhaustion branch unreachable (shown in the lemmas below). -/
def splitSegmentRecursively : Nat → Nat → Str → List Str
  | 0, _, text => [text]
  | fuel + 1, maxLimit, text =>
    if getTokenCount text ≤ maxLimit then [text]
    else
      let sentenceParts := attachDelims isSentenceDelim (splitCapture isSentenceDelim text)
      if text.any isSentenceDelim && sentenceParts.length > 1 then
        regroupChunks (splitSegmentRecursively fuel maxLimit) sentenceParts maxLimit
      else
        let clauseParts := attachDelims isClauseDelim (splitCapture isClauseDelim text)
        if text.any isClauseDelim && clauseParts.length > 1 then
          regroupChunks (splitSegmentRecursively fuel maxLimit) clauseParts maxLimit
        else
          let mid := text.length / 2
          if mid = 0 then [text]
          else
            splitSegmentRecursively fuel maxLimit (text.take mid) ++
            splitSegmentRecursively fuel maxLimit (text.drop mid)

/-- Accumulation loop of splitTextIntoChunks over the paragraph segments. -/
def splitTextIntoChunksGo (maxLimit : Nat) (chunks : List Str) (current : Str) :
    List Str → List Str
  | [] => if current ≠ [] then chunks ++ [current] else chunks
  | para :: rest =>
    if getTokenCount (current ++ para) ≤ maxLimit then
      splitTextIntoChunksGo maxLimit chunks (current ++ para) rest
    else
      splitTextIntoChunksGo maxLimit
        ((if current ≠ [] then chunks ++ [current] else chunks) ++
          (if getTokenCount para > maxLimit then
            splitSegmentRecursively para.length maxLimit para
          else []))
        (if getTokenCount para > maxLimit then [] else para)
        rest

/-- Chunker splitTextIntoChunks: paragraph-first split with greedy
accumulation, recursing into oversized paragraphs. -/
def splitTextIntoChunks (text : Str) (maxTokensPerChunk : Nat) : List Str :=
  if getTokenCount text ≤ maxTokensPerChunk then [text]
  else
    splitTextIntoChunksGo maxTokensPerChunk [] []
      (attachDelimsKeepLeading isNewlineChar (splitCapture isNewlineChar text))

/-- Well-formedness of one produced chunk: nonempty, and within the token
budget unless it is a single character that midpoint splitting can no
longer divide. -/
def chunkOk (maxLimit : Nat) (c : Str) : Prop :=
  c ≠ [] ∧ (getTokenCount c ≤ maxLimit ∨ c.length = 1)

/-- Dictionary entry with the fields the segmenter consumes.  JavaScript
falsiness of an absent or empty string field is modelled by the empty
string, matching the normalization the data loader applies (coreCN and
coreEN default to the empty string). -/
structure Term where
  id : String
  chinese_term : Str
  english_term : Str
  related_terms : List Str
  coreCN : Str
  coreEN : Str
deriving DecidableEq, Repr

/-- Mode of buildTermSegments, selecting which language field is matched. -/
inductive SegMode
  | source
  | translation
deriving DecidableEq, Repr

/-- Match kind recorded on a segment. -/
inductive MatchKind
  | strong
  | weak
deriving DecidableEq, Repr

/-- TextSegment of the source; fields absent on plain segments are none. -/
structure TextSegment where
  id : String
  text : Str
  matchedTerm : Option Term
  termOccurrenceIndex : Option Nat
  matchType : Option MatchKind
deriving DecidableEq, Repr

/-- Collapses every maximal whitespace run to a single space, the image of
replace(\s+ with one space); the flag records whether the previous character
was whitespace. -/
def collapseSpacesGo : Str → Bool → Str
  | [], _ => []
  | c :: rest, prevSpace =>
    if isSpaceChar c then
      (if prevSpace then [] else [' ']) ++ collapseSpacesGo rest true
    else c :: collapseSpacesGo rest false

/-- Removes leading and trailing whitespace. -/
def trimSpaces (l : Str) : Str :=
  ((l.dropWhile isSpaceChar).reverse.dropWhile isSpaceChar).reverse

/-- Key normalization normalizeKey: lowercase, collapse whitespace, trim. -/
def normalizeKey (l : Str) : Str :=
  trimSpaces (collapseSpacesGo (l.map lowerChar) false)

/-- One token of a compiled search pattern.  A key character becomes a
case-insensitive literal; whitespace (escaped then replaced by a
one-or-more-whitespace matcher) becomes ws; in translation mode the
parentheses become flexible, surrounded by optional whitespace. -/
inductive PatTok
  | lit (c : Char)
  | ws
  | openParen
  | closeParen
deriving DecidableEq, Repr

/-- Compiled pattern of one dictionary key: the token list plus the
translation-mode decorations, a leading word-boundary anchor when the key
starts with a word character and an optional plural suffix followed by a
word boundary when it ends with one. -/
structure Pattern where
  toks : List PatTok
  bStart : Bool
  wordEndPlural : Bool
deriving DecidableEq, Repr

/-- Token compilation: escape, make whitespace flexible, and in translation
mode make parentheses flexible.  The flag merges a whitespace run into a
single ws token, the image of replacing each whitespace run. -/
def compileToksGo (mode : SegMode) : Str → Bool → List PatTok
  | [], _ => []
  | c :: rest, prevWs =>
    if isSpaceChar c then
      (if prevWs then [] else [PatTok.ws]) ++ compileToksGo mode rest true
    else
      (if mode = SegMode.translation && c = '(' then [PatTok.openParen]
       else if mode = SegMode.translation && c = ')' then [PatTok.closeParen]
       else [PatTok.lit c]) ++ compileToksGo mode rest false

/-- Pattern construction of findMatches for one key. -/
def compilePattern (mode : SegMode) (key : Str) : Pattern :=
  { toks := compileToksGo mode key false
    bStart := mode = SegMode.translation &&
      (match key.head? with
       | some c => isWordChar c
       | none => false)
    wordEndPlural := mode = SegMode.translation &&
      (match key.getLast? with
       | some c => isWordChar c
       | none => false) }

def isWordOpt : Option Char → Bool
  | some c => isWordChar c
  | none => false

/-- JavaScript word boundary between two adjacent positions; none stands
for the edge of the string. -/
def wordBoundary (a b : Option Char) : Bool := isWordOpt a != isWordOpt b

/-- Greedy token matcher at the head of the suffix s, returning the number
of characters consumed.  Greedy whitespace consumption is deterministic
here because in a compiled key a ws token is always followed by a
non-whitespace literal, so the regex backtracking can never succeed with a
shorter run. -/
def matchToks : List PatTok → Str → Option Nat
  | [], _ => some 0
  | PatTok.lit c :: rest, s =>
    match s with
    | [] => none
    | x :: xs =>
      if lowerChar x = lowerChar c then (matchToks rest xs).map (· + 1) else none
  | PatTok.ws :: rest, s =>
    let n := (takeRun isSpaceChar s).1.length
    if n = 0 then none
    else (matchToks rest (s.drop n)).map (· + n)
  | PatTok.openParen :: rest, s =>
    let n1 := (takeRun isSpaceChar s).1.length
    match s.drop n1 with
    | x :: xs =>
      if x = '(' then
        let n2 := (takeRun isSpaceChar xs).1.length
        (matchToks rest (xs.drop n2)).map (· + (n1 + 1 + n2))
      else none
    | [] => none
  | PatTok.closeParen :: rest, s =>
    let n1 := (takeRun isSpaceChar s).1.length
    match s.drop n1 with
    | x :: xs =>
      if x = ')' then
        let n2 := (takeRun isSpaceChar xs).1.length
        (matchToks rest (xs.drop n2)).map (· + (n1 + 1 + n2))
      else none
    | [] => none

def matchesEsBoundary : Str → Bool
  | x :: y :: ys => lowerChar x = 'e' && lowerChar y = 's' && !isWordOpt ys.head?
  | _ => false

def matchesSBoundary : Str → Bool
  | x :: xs => lowerChar x = 's' && !isWordOpt xs.head?
  | _ => false

/-- Optional plural suffix and trailing word boundary of a translation-mode
pattern whose key ends in a word character: the regex alternatives es, s and
the empty suffix are tried in backtracking order, each followed by a word
boundary; the character before the suffix is a word character, so the
boundary holds exactly when the following character is absent or not a word
character. -/
def pluralBoundarySuffix (s : Str) : Option Nat :=
  if matchesEsBoundary s then some 2
  else if matchesSBoundary s then some 1
  else if !isWordOpt s.head? then some 0
  else none

/-- Matches a compiled pattern at the head of the suffix s, where prev is
the character just before this position in the scanned text. -/
def matchPatternAt (p : Pattern) (prev : Option Char) (s : Str) : Option Nat :=
  if p.bStart && !wordBoundary prev s.head? then none
  else
    match matchToks p.toks s with
    | none => none
    | some n =>
      if p.wordEndPlural then
        match pluralBoundarySuffix (s.drop n) with
        | none => none
        | some k => some (n + k)
      else some n

/-- Anchored whole-string test, the model of testing a found match text
against a single descriptor pattern wrapped in start and end anchors. -/
def matchFull (p : Pattern) (t : Str) : Bool :=
  match matchPatternAt p none t with
  | some n => n = t.length
  | none => false

/-- Insertion-ordered map from normalized keys to terms, the model of the
JavaScript Map built by buildTermSegments. -/
abbrev TermMap := List (Str × Term)

def mapHas (m : TermMap) (k : Str) : Bool :=
  m.any (fun e => e.1 == k)

/-- Map.set: overwrite in place, otherwise append, preserving insertion
order. -/
def mapSet (m : TermMap) (k : Str) (v : Term) : TermMap :=
  if mapHas m k then m.map (fun e => if e.1 = k then (k, v) else e)
  else m ++ [(k, v)]

/-- Strong and weak lookup maps of buildTermSegments: the strong map takes
each term's primary label (by mode) and every alias; the weak map takes the
core-concept string, but only when its key is not already present in the
strong map built so far. -/
def buildMapsGo (mode : SegMode) : List Term → TermMap → TermMap → TermMap × TermMap
  | [], strongMap, weakMap => (strongMap, weakMap)
  | term :: rest, strongMap, weakMap =>
    let primary := match mode with
      | SegMode.source => term.chinese_term
      | SegMode.translation => term.english_term
    let strongMap1 := if primary ≠ [] then mapSet strongMap (normalizeKey primary) term
      else strongMap
    let strongMap2 := term.related_terms.foldl
      (fun m aliasStr => mapSet m (normalizeKey aliasStr) term) strongMap1
    let core := match mode with
      | SegMode.source => term.coreCN
      | SegMode.translation => term.coreEN
    let weakMap2 :=
      if core = [] then weakMap
      else
        if mapHas strongMap2 (normalizeKey core) then weakMap
        else mapSet weakMap (normalizeKey core) term
    buildMapsGo mode rest strongMap2 weakMap2

/-- Descriptor of findMatches: compiled pattern, the key length used for
longest-first ordering, and the originating term. -/
structure Descriptor where
  pattern : Pattern
  length : Nat
  term : Term
deriving DecidableEq, Repr

/-- Descriptor construction of findMatches, skipping duplicate patterns
(the seenPatterns set). -/
def buildDescriptorsGo (mode : SegMode) : TermMap → List Pattern → List Descriptor
  | [], _ => []
  | (key, term) :: rest, seen =>
    let pat := compilePattern mode key
    if pat ∈ seen then buildDescriptorsGo mode rest seen
    else ⟨pat, key.length, term⟩ :: buildDescriptorsGo mode rest (seen ++ [pat])

/-- Longest-key-first descriptor order of findMatches; the stable insertion
sort models the stable JavaScript Array.sort. -/
def descLenGe (a b : Descriptor) : Prop := b.length ≤ a.length

instance : DecidableRel descLenGe := fun a b => Nat.decLe b.length a.length

/-- One raw match found by the scan. -/
structure RawMatch where
  start : Nat
  stop : Nat
  term : Term
  text : Str
deriving DecidableEq, Repr

/-- First descriptor in order whose pattern matches at this position, the
model of the regex alternation. -/
def firstAlt (descs : List Descriptor) (prev : Option Char) (s : Str) : Option Nat :=
  match descs with
  | [] => none
  | d :: rest =>
    match matchPatternAt d.pattern prev s with
    | some n => some n
    | none => firstAlt rest prev s

/-- Global scan of the master regex: at each position from left to right
try the alternation; on a match record it (resolving the owning descriptor
by the anchored whole-match test, as the source does) and continue after
it.  The fuel is the length of the scanned suffix.  A zero-length match can
arise only from an empty normalized key; on such a match the source's exec
loop never advances and spins forever, returning nothing, so the model
skips it to stay total. -/
def execScan (descs : List Descriptor) : Nat → Option Char → Str → Nat → List RawMatch
  | 0, _, _, _ => []
  | _ + 1, prev, [], _ => []
  | fuel + 1, prev, c :: rest, i =>
    match firstAlt descs prev (c :: rest) with
    | none => execScan descs fuel (some c) rest (i + 1)
    | some n =>
      if n = 0 then execScan descs fuel (some c) rest (i + 1)
      else
        let t := (c :: rest).take n
        (match descs.find? (fun d => matchFull d.pattern t) with
         | some d => [(⟨i, i + n, d.term, t⟩ : RawMatch)]
         | none => []) ++
        execScan descs fuel t.getLast? ((c :: rest).drop n) (i + n)

/-- findMatches: build the deduplicated descriptors, sort them longest key
first, and scan the whole text.  The source's unused useCore flag is
dropped. -/
def findMatches (text : Str) (termMap : TermMap) (mode : SegMode) : List RawMatch :=
  let descriptors := List.insertionSort descLenGe (buildDescriptorsGo mode termMap [])
  if descriptors = [] then []
  else execScan descriptors text.length none text 0

/-- Accepted match with its tag. -/
structure FinalMatch where
  start : Nat
  stop : Nat
  term : Term
  text : Str
  type : MatchKind
deriving DecidableEq, Repr

/-- Occupation test of the coverage mask: the mask holds true exactly at
the indices covered by some already accepted match, so a candidate span is
occupied when some index in it lies inside an accepted span. -/
def occupiedIn (acc : List FinalMatch) (s e : Nat) : Bool :=
  decide (s < e) &&
    acc.any (fun m => decide (s < m.stop) && decide (m.start < e) &&
      decide (m.start < m.stop))

/-- Greedy acceptance pass over sorted candidate matches: accept a match
only when no character of its span is already covered, then mark its span.
Both passes of the source tag accepted matches strong (the weak pass
deliberately so, per the CHANGE comment in the source). -/
def acceptMatches (kind : MatchKind) : List FinalMatch → List RawMatch → List FinalMatch
  | acc, [] => acc
  | acc, m :: rest =>
    if occupiedIn acc m.start m.stop then acceptMatches kind acc rest
    else acceptMatches kind (acc ++ [⟨m.start, m.stop, m.term, m.text, kind⟩]) rest

/-- Longest-first, then leftmost candidate order of both passes. -/
def rawMatchLe (a b : RawMatch) : Prop :=
  b.stop - b.start < a.stop - a.start ∨
    (a.stop - a.start = b.stop - b.start ∧ a.start ≤ b.start)

instance : DecidableRel rawMatchLe := fun a b => by
  unfold rawMatchLe
  infer_instance

/-- Position order used to emit segments. -/
def finalMatchLe (a b : FinalMatch) : Prop := a.start ≤ b.start

instance : DecidableRel finalMatchLe := fun a b => Nat.decLe a.start b.start

/-- Accepted matches of both passes over a text: strong pass first, then
the weak pass restricted to still uncovered spans, both tagged strong. -/
def finalMatchesOf (text : Str) (terms : List Term) (mode : SegMode) :
    List FinalMatch :=
  let maps := buildMapsGo mode terms [] []
  let strongSorted := List.insertionSort rawMatchLe (findMatches text maps.1 mode)
  let acc1 := acceptMatches MatchKind.strong [] strongSorted
  if maps.2.length > 0 then
    acceptMatches MatchKind.strong acc1
      (List.insertionSort rawMatchLe (findMatches text maps.2 mode))
  else acc1

def modeName : SegMode → String
  | SegMode.source => "source"
  | SegMode.translation => "translation"

def mkSegId (mode : SegMode) (idx : Nat) : String :=
  "seg_" ++ modeName mode ++ "_" ++ toString idx

def countsGet (counts : List (String × Nat)) (k : String) : Nat :=
  match counts.find? (fun e => e.1 == k) with
  | some e => e.2
  | none => 0

def countsSet (counts : List (String × Nat)) (k : String) (v : Nat) :
    List (String × Nat) :=
  if counts.any (fun e => e.1 == k) then
    counts.map (fun e => if e.1 = k then (k, v) else e)
  else counts ++ [(k, v)]

/-- Segment emission loop of buildTermSegments: a plain segment for every
gap, a matched segment for every accepted match carrying its per-term
occurrence index, and a trailing plain segment. -/
def assembleGo (mode : SegMode) (text : Str) :
    List FinalMatch → Nat → Nat → List (String × Nat) → List TextSegment
  | [], lastIndex, segIndex, _ =>
    if lastIndex < text.length then
      [⟨mkSegId mode segIndex, text.drop lastIndex, none, none, none⟩]
    else []
  | m :: rest, lastIndex, segIndex, counts =>
    let gap : List TextSegment :=
      if lastIndex < m.start then
        [⟨mkSegId mode segIndex, (text.drop lastIndex).take (m.start - lastIndex),
          none, none, none⟩]
      else []
    let segIndex1 := if lastIndex < m.start then segIndex + 1 else segIndex
    let count := countsGet counts m.term.id
    gap ++ (⟨mkSegId mode segIndex1, m.text, some m.term, some count, some m.type⟩ ::
      assembleGo mode text rest m.stop (segIndex1 + 1)
        (countsSet counts m.term.id (count + 1)))

/-- buildTermSegments: empty text short-circuits to the empty list;
otherwise emit segments from the position-sorted accepted matches. -/
def buildTermSegments (text : Str) (terms : List Term) (mode : SegMode) :
    List TextSegment :=
  if text = [] then []
  else
    assembleGo mode text
      (List.insertionSort finalMatchLe (finalMatchesOf text terms mode)) 0 0 []

instance : IsTotal FinalMatch finalMatchLe :=
  ⟨fun a b => Nat.le_total a.start b.start⟩

instance : IsTrans FinalMatch finalMatchLe :=
  ⟨fun _ _ _ => Nat.le_trans⟩

/-- Well-formedness of a found match against the scanned text: nonzero
width, in bounds, and the recorded text is the corresponding slice. -/
def MatchWF (text : Str) (start stop : Nat) (mtext : Str) : Prop :=
  start < stop ∧ stop ≤ text.length ∧
    mtext = (text.drop start).take (stop - start)

/-- Disjointness of two accepted spans. -/
def FDisj (a b : FinalMatch) : Prop := a.stop ≤ b.start ∨ b.stop ≤ a.start

/-- Dictionary entry whose only way to match the text "ab" is its core
concept string: the primary label is "zzz", there are no aliases, and
coreCN is "ab". -/
def exampleCoreTerm : Term :=
  ⟨"t_core", 'z' :: 'z' :: 'z' :: [], [], [], 'a' :: 'b' :: [], []⟩

/-- Error value raised by one completion attempt, carrying the fields that
isQuotaError inspects.  The message stands for the string the source
derives from the error (message, the raw string, or its JSON rendering). -/
structure JsError where
  status : Option Nat
  code : Option Nat
  errorCode : Option Nat
  responseStatus : Option Nat
  message : Str
deriving DecidableEq, Repr

/-- Contiguous substring test, the model of String.includes. -/
def containsSub (needle : Str) : Str → Bool
  | [] => needle.isEmpty
  | c :: rest => needle.isPrefixOf (c :: rest) || containsSub needle rest

/-- Quota classification isQuotaError: a 429-style status on any of the
inspected fields, or a message containing 429, quota, or
RESOURCE_EXHAUSTED. -/
def isQuotaError (e : JsError) : Bool :=
  e.status == some 429 || e.code == some 429 || e.errorCode == some 429 ||
  e.responseStatus == some 429 ||
  containsSub ('4' :: '2' :: '9' :: []) e.message ||
  containsSub ('q' :: 'u' :: 'o' :: 't' :: 'a' :: []) e.message ||
  containsSub
    ('R' :: 'E' :: 'S' :: 'O' :: 'U' :: 'R' :: 'C' :: 'E' :: '_' ::
     'E' :: 'X' :: 'H' :: 'A' :: 'U' :: 'S' :: 'T' :: 'E' :: 'D' :: [])
    e.message

/-- Outcome of one raw attempt of the provider call, supplied as an oracle
indexed by the attempt number. -/
inductive CompletionOutcome
  | ok (text : Str)
  | err (e : JsError)

/-- Errors surfaced by the resilient wrapper. -/
inductive CompletionError
  | apiKeyMissing
  | quotaExceeded
  | other (msg : Str)
deriving DecidableEq, Repr

def MAX_RETRIES : Nat := 3

/-- Retry loop of getCompletion: the remaining counter runs the for loop
over attempts 0..MAX_RETRIES, the second component collects the backoff
sleeps (in milliseconds) performed before each retry.  A quota-classified
failure retries while attempts remain and surfaces QUOTA_EXCEEDED after the
last; any other failure is rethrown immediately. -/
def getCompletionGo (attemptOutcome : Nat → CompletionOutcome) :
    Nat → Nat → Option JsError → List Nat →
      Except CompletionError Str × List Nat
  | 0, _, lastError, delays =>
    (Except.error (CompletionError.other (match lastError with
      | some e => e.message
      | none => [])), delays)
  | remaining + 1, attempt, _, delays =>
    let delays1 := if attempt > 0 then delays ++ [1000 * 2 ^ (attempt - 1)] else delays
    match attemptOutcome attempt with
    | CompletionOutcome.ok text => (Except.ok text, delays1)
    | CompletionOutcome.err e =>
      if isQuotaError e then
        if attempt < MAX_RETRIES then
          getCompletionGo attemptOutcome remaining (attempt + 1) (some e) delays1
        else (Except.error CompletionError.quotaExceeded, delays1)
      else (Except.error (CompletionError.other e.message), delays1)

/-- Resilient completion wrapper getCompletion: the missing-key guard, then
the retry loop over MAX_RETRIES + 1 attempts. -/
def getCompletion (apiKey : Str) (attemptOutcome : Nat → CompletionOutcome) :
    Except CompletionError Str × List Nat :=
  if apiKey = [] then (Except.error CompletionError.apiKeyMissing, [])
  else getCompletionGo attemptOutcome (MAX_RETRIES + 1) 0 none []

/-- Oracle of Scenario 6: the first two attempts fail with a 429 status,
the third succeeds. -/
def scenarioOracle : Nat → CompletionOutcome
  | 0 => CompletionOutcome.err ⟨some 429, none, none, none, []⟩
  | 1 => CompletionOutcome.err ⟨some 429, none, none, none, []⟩
  | _ => CompletionOutcome.ok ('h' :: 'i' :: [])

/-- Character span of an alignment. -/
structure TermSpan where
  start : Nat
  stop : Nat
deriving DecidableEq, Repr

/-- Alignment of one term: its identifier plus its spans in the source and
translated texts. -/
structure TermAlignment where
  termId : String
  sourceSpans : List TermSpan
  targetSpans : List TermSpan
deriving DecidableEq, Repr

/-- Observable outcome of the Align completion call followed by markdown
cleanup and JSON parsing, as alignTermsWithLLM sees it: a parsed JSON
array, a parsed non-array value, or a thrown error (from the completion
call or from the parser). -/
inductive AlignOutcome
  | parsedArray (als : List TermAlignment)
  | parsedNonArray
  | failed
deriving DecidableEq, Repr

/-- Structural part of alignTermsWithLLM: the early-return guards, then the
defensive handling of the parse outcome; a non-array value and a thrown
error both collapse to the empty alignment list. -/
def alignTermsWithLLM (sourceText translatedText : Str) (terms : List Term)
    (outcome : AlignOutcome) : List TermAlignment :=
  if terms = [] then []
  else if sourceText = [] then []
  else if translatedText = [] then []
  else
    match outcome with
    | AlignOutcome.parsedArray als => als
    | AlignOutcome.parsedNonArray => []
    | AlignOutcome.failed => []

def shiftSpan (off : Nat) (s : TermSpan) : TermSpan := ⟨s.start + off, s.stop + off⟩

/-- Appends the shifted spans of one chunk alignment onto the first entry
with the same term identifier, the model of mutating the entry returned by
Array.find. -/
def appendSpansToFirst : List TermAlignment → TermAlignment → Nat → Nat →
    List TermAlignment
  | [], _, _, _ => []
  | a :: rest, al, so, t =>
    if a.termId = al.termId then
      ⟨a.termId, a.sourceSpans ++ al.sourceSpans.map (shiftSpan so),
        a.targetSpans ++ al.targetSpans.map (shiftSpan t)⟩ :: rest
    else a :: appendSpansToFirst rest al so t

/-- Merge block of the multi-chunk loop: for each alignment of the chunk,
find the global entry by term identifier, creating an empty one at the end
when absent, then append the offset-shifted spans to it. -/
def mergeChunkAlignments (acc : List TermAlignment) (als : List TermAlignment)
    (srcOff tgtOff : Nat) : List TermAlignment :=
  als.foldl
    (fun acc al =>
      let acc1 := if acc.any (fun a => a.termId == al.termId) then acc
        else acc ++ [⟨al.termId, [], []⟩]
      appendSpansToFirst acc1 al srcOff tgtOff)
    acc

/-- Translation mode of translateText. -/
inductive TMode
  | fast
  | professional
deriving DecidableEq, Repr

/-- Result record of translateText. -/
structure TranslationResult where
  finalText : Str
  reflectionNotes : Option Str
  alignments : Option (List TermAlignment)
deriving DecidableEq, Repr

/-- Per-call oracles for the orchestrator's completion steps, indexed by
the chunk number (index 0 for the single-chunk strategy): the draft,
review and polish call results and the alignment call outcome.  Prompt
construction, the glossary filter and progress callbacks only feed these
calls, so the oracle absorbs them. -/
structure StepOracle where
  draft : Nat → Except CompletionError Str
  reflect : Nat → Except CompletionError Str
  improve : Nat → Except CompletionError Str
  align : Nat → AlignOutcome

def partLabel (n : Nat) : Str :=
  ('[' :: 'P' :: 'a' :: 'r' :: 't' :: ' ' :: []) ++ (toString n).toList ++
    (']' :: ' ' :: [])

def joinSep : Str := '\n' :: '\n' :: []

/-- Array.prototype.join with a separator. -/
def joinWith (sep : Str) : List Str → Str
  | [] => []
  | [x] => x
  | x :: y :: rest => x ++ sep ++ joinWith sep (y :: rest)

/-- Sequential multi-chunk loop of translateText.  Any failing completion
step aborts the whole request.  In professional mode each chunk adds its
alignments, shifted by the running offsets, into the global list; after
each chunk the source offset grows by the chunk length and the target
offset by the translated chunk length plus 2 (the join separator
length). -/
def translateChunksGo (oracle : StepOracle) (mode : TMode)
    (relevantTerms : List Term) :
    List Str → Nat → Nat → Nat → List Str → List Str → List TermAlignment →
      Except CompletionError (List Str × List Str × List TermAlignment)
  | [], _, _, _, results, reflections, allAlignments =>
    Except.ok (results, reflections, allAlignments)
  | chunk :: rest, i, srcOff, tgtOff, results, reflections, allAlignments =>
    match mode with
    | TMode.fast =>
      match oracle.draft i with
      | Except.error e => Except.error e
      | Except.ok chunkResult =>
        translateChunksGo oracle mode relevantTerms rest (i + 1)
          (srcOff + chunk.length) (tgtOff + chunkResult.length + 2)
          (results ++ [chunkResult]) reflections allAlignments
    | TMode.professional =>
      match oracle.draft i with
      | Except.error e => Except.error e
      | Except.ok _ =>
        match oracle.reflect i with
        | Except.error e => Except.error e
        | Except.ok reflection =>
          match oracle.improve i with
          | Except.error e => Except.error e
          | Except.ok improved =>
            let chunkAlignments :=
              alignTermsWithLLM chunk improved relevantTerms (oracle.align i)
            translateChunksGo oracle mode relevantTerms rest (i + 1)
              (srcOff + chunk.length) (tgtOff + improved.length + 2)
              (results ++ [improved])
              (reflections ++ [partLabel (i + 1) ++ reflection])
              (mergeChunkAlignments allAlignments chunkAlignments srcOff tgtOff)

/-- Orchestrator translateText: the single-chunk strategy when the token
estimate fits the budget (draft, and for professional mode review, polish
and align), otherwise the sequential multi-chunk strategy over the chunks
of splitTextIntoChunks at the evenly distributed chunk size. -/
def translateText (oracle : StepOracle) (sourceText : Str) (mode : TMode)
    (maxTokensPerChunk : Nat) (relevantTerms : List Term) :
    Except CompletionError TranslationResult :=
  if getTokenCount sourceText ≤ maxTokensPerChunk then
    match oracle.draft 0 with
    | Except.error e => Except.error e
    | Except.ok draft =>
      match mode with
      | TMode.fast => Except.ok ⟨draft, none, none⟩
      | TMode.professional =>
        match oracle.reflect 0 with
        | Except.error e => Except.error e
        | Except.ok reflection =>
          match oracle.improve 0 with
          | Except.error e => Except.error e
          | Except.ok improved =>
            Except.ok ⟨improved, some reflection,
              some (alignTermsWithLLM sourceText improved relevantTerms
                (oracle.align 0))⟩
  else
    match translateChunksGo oracle mode relevantTerms
      (splitTextIntoChunks sourceText
        (calculateChunkSize (getTokenCount sourceText) maxTokensPerChunk))
      0 0 0 [] [] [] with
    | Except.error e => Except.error e
    | Except.ok (results, reflections, allAlignments) =>
      Except.ok ⟨joinWith joinSep results, some (joinWith joinSep reflections),
        match mode with
        | TMode.professional => some allAlignments
        | TMode.fast => none⟩

/-- Oracle whose three translation steps succeed and whose Align completion
output always fails to parse. -/
def alignFailOracle : StepOracle :=
  ⟨fun _ => Except.ok ('d' :: []), fun _ => Except.ok ('r' :: []),
   fun _ => Except.ok ('p' :: []), fun _ => AlignOutcome.failed⟩

/-- First entry with the given term identifier, the model of Array.find on
the global alignment list. -/
def lookupAl (l : List TermAlignment) (t : String) : Option TermAlignment :=
  l.find? (fun a => a.termId == t)

/-- Spans contributed to the identifier t by one chunk's alignments, each
shifted by the chunk's source offset. -/
def chunkSrcSpans (als : List TermAlignment) (t : String) (so : Nat) :
    List TermSpan :=
  (als.filter (fun al => al.termId == t)).flatMap
    (fun al => al.sourceSpans.map (shiftSpan so))

def chunkTgtSpans (als : List TermAlignment) (t : String) (tgt : Nat) :
    List TermSpan :=
  (als.filter (fun al => al.termId == t)).flatMap
    (fun al => al.targetSpans.map (shiftSpan tgt))

/-- Per-chunk contribution list of a multi-chunk professional request: for
each chunk, its alignment list together with the running source and target
offsets at which it is merged.  The source offset grows by the chunk
length, the target offset by the translated (polished) chunk length plus
the separator length 2. -/
def stepsOf (relevantTerms : List Term) (alignOut : Nat → AlignOutcome)
    (imp : Nat → Str) :
    List Str → Nat → Nat → Nat → List (List TermAlignment × Nat × Nat)
  | [], _, _, _ => []
  | chunk :: rest, i, so, tg =>
    (alignTermsWithLLM chunk (imp i) relevantTerms (alignOut i), so, tg) ::
      stepsOf relevantTerms alignOut imp rest (i + 1) (so + chunk.length)
        (tg + (imp i).length + 2)

/-- Iterated merge of the per-chunk contributions into the global alignment
list. -/
def mergeAll : List TermAlignment → List (List TermAlignment × Nat × Nat) →
    List TermAlignment
  | acc, [] => acc
  | acc, st :: rest => mergeAll (mergeChunkAlignments acc st.1 st.2.1 st.2.2) rest

/-- Whether any chunk contributes an alignment for the identifier t. -/
def appearsIn (steps : List (List TermAlignment × Nat × Nat)) (t : String) :
    Bool :=
  steps.any (fun st => st.1.any (fun al => al.termId == t))

/-- Specification of the merged source spans of identifier t, following the
spec: the concatenation over chunks, in order, of that chunk's spans for t
shifted by the chunk's running source offset. -/
def specSourceSpans (steps : List (List TermAlignment × Nat × Nat))
    (t : String) : List TermSpan :=
  steps.flatMap (fun st => chunkSrcSpans st.1 t st.2.1)

/-- Specification of the merged target spans of identifier t, shifted by
the running target offsets. -/
def specTargetSpans (steps : List (List TermAlignment × Nat × Nat))
    (t : String) : List TermSpan :=
  steps.flatMap (fun st => chunkTgtSpans st.1 t st.2.2)

/-- Term used by the three-chunk merge witness. -/
def c6Term : Term :=
  ⟨"t_merge", 'a' :: [], [], [], [], []⟩

/-- Oracle for the three-chunk merge witness: every chunk aligns the same
term identifier to one span. -/
def c6Oracle : StepOracle :=
  ⟨fun _ => Except.ok ('D' :: []), fun _ => Except.ok ('R' :: []),
   fun _ => Except.ok ('P' :: []),
   fun _ => AlignOutcome.parsedArray [⟨"t_merge", [⟨0, 1⟩], [⟨0, 1⟩]⟩]⟩

lemma countRuns_append (p : Char → Bool) (a b : Str) (flag : Bool) :
    countRuns p a flag ≤ countRuns p (a ++ b) flag := by
  induction a generalizing flag with
  | nil => exact Nat.zero_le _
  | cons c rest ih =>
    simp only [List.cons_append, countRuns]
    cases hpc : p c with
    | true =>
      simp only [hpc, if_true]
      exact Nat.add_le_add_left (ih true) _
    | false =>
      simp only [hpc, Bool.false_eq_true, if_false]
      exact ih false

lemma getTokenCount_mono (a b : Str) :
    getTokenCount a ≤ getTokenCount (a ++ b) := by
  rcases eq_or_ne a [] with ha | ha
  · simp [ha, getTokenCount]
  · have hab : a ++ b ≠ [] := by
      intro h
      exact ha (List.append_eq_nil.mp h).1
    simp only [getTokenCount, if_neg ha, if_neg hab]
    apply Nat.div_le_div_right
    have hcjk : (a.filter isCJKChar).length ≤ ((a ++ b).filter isCJKChar).length := by
      simp [List.filter_append]
    have hwords : countRuns (fun c => !isSpaceChar c) (normalizeForWords a) false ≤
        countRuns (fun c => !isSpaceChar c) (normalizeForWords (a ++ b)) false := by
      have : normalizeForWords (a ++ b) = normalizeForWords a ++ normalizeForWords b := by
        simp [normalizeForWords]
      rw [this]
      exact countRuns_append _ _ _ _
    omega

/-- C8: appending any text can only increase the token estimate. -/
theorem estimateTokens_monotone (text1 text2 : Str) (h : text2 ≠ []) :
    getTokenCount text1 ≤ getTokenCount (text1 ++ text2) :=
  getTokenCount_mono text1 text2

theorem estimateTokens_monotone_witness :
    ('x' :: []) ≠ ([] : Str) ∧
      getTokenCount ('a' :: []) ≤ getTokenCount (('a' :: []) ++ ('x' :: [])) :=
  ⟨by decide, estimateTokens_monotone ('a' :: []) ('x' :: []) (by decide)⟩

lemma takeRun_append (p : Char → Bool) (l : Str) :
    (takeRun p l).1 ++ (takeRun p l).2 = l := by
  induction l with
  | nil => rfl
  | cons c rest ih =>
    simp only [takeRun]
    cases hpc : p c with
    | true => simpa [hpc] using ih
    | false => simp [hpc]

lemma takeRun_snd_length_le (p : Char → Bool) (l : Str) :
    (takeRun p l).2.length ≤ l.length := by
  conv_rhs => rw [← takeRun_append p l]
  simp

lemma takeRun_fst_all (p : Char → Bool) (l : Str) :
    (takeRun p l).1.all p = true := by
  induction l with
  | nil => rfl
  | cons c rest ih =>
    simp only [takeRun]
    cases hpc : p c with
    | true => simpa [hpc] using ih
    | false => simp [hpc]

lemma takeRun_snd_head (p : Char → Bool) (l : Str) (c : Char) (rest : Str)
    (h : (takeRun p l).2 = c :: rest) : p c = false := by
  induction l with
  | nil => simp [takeRun] at h
  | cons a as ih =>
    by_cases hpa : p a = true
    · simp only [takeRun, hpa, if_true] at h
      exact ih h
    · have hpa2 : p a = false := by simpa using hpa
      simp only [takeRun, hpa2, Bool.false_eq_true, if_false] at h
      obtain ⟨hac, -⟩ := List.cons.injEq .. ▸ h
      rw [← hac]
      exact hpa2

lemma appendToLast_nonempty (acc : List Str) (curr : Str)
    (h : ∀ x ∈ acc, x ≠ []) : ∀ x ∈ appendToLast acc curr, x ≠ [] := by
  induction acc with
  | nil => simp [appendToLast]
  | cons a as ih =>
    cases as with
    | nil =>
      intro x hx
      simp only [appendToLast, List.mem_singleton] at hx
      subst hx
      intro hcontra
      exact h a (by simp) (List.append_eq_nil.mp hcontra).1
    | cons b bs =>
      intro x hx
      simp only [appendToLast, List.mem_cons] at hx
      rcases hx with rfl | hx
      · exact h x (by simp)
      · exact ih (fun y hy => h y (List.mem_cons_of_mem a hy)) x hx

lemma appendToLast_sumLen (acc : List Str) (curr : Str) :
    ((appendToLast acc curr).map List.length).sum ≤
      (acc.map List.length).sum + curr.length := by
  induction acc with
  | nil => simp [appendToLast]
  | cons a as ih =>
    cases as with
    | nil => simp [appendToLast]
    | cons b bs =>
      simp only [appendToLast, List.map_cons, List.sum_cons]
      have h2 := ih
      simp only [List.map_cons, List.sum_cons] at h2
      omega

lemma attachDelimsGo_nonempty (isD : Char → Bool) (parts : List Str) :
    ∀ acc : List Str, (∀ x ∈ acc, x ≠ []) →
      ∀ x ∈ attachDelimsGo isD acc parts, x ≠ [] := by
  induction parts with
  | nil => intro acc hacc; simpa [attachDelimsGo] using hacc
  | cons curr rest ih =>
    intro acc hacc
    simp only [attachDelimsGo]
    apply ih
    by_cases h1 : (!curr.isEmpty && curr.all isD) = true
    · simp only [h1, if_true]
      exact appendToLast_nonempty acc curr hacc
    · simp only [h1, if_false]
      by_cases h2 : (!curr.isEmpty) = true
      · simp only [h2, if_true]
        intro x hx
        rcases List.mem_append.mp hx with hx | hx
        · exact hacc x hx
        · rw [List.mem_singleton.mp hx]
          simpa using h2
      · simp only [h2, if_false]
        exact hacc

lemma attachDelimsGo_sumLen (isD : Char → Bool) (parts : List Str) :
    ∀ acc : List Str,
      ((attachDelimsGo isD acc parts).map List.length).sum ≤
        (acc.map List.length).sum + ((parts.map List.length).sum) := by
  induction parts with
  | nil => intro acc; simp [attachDelimsGo]
  | cons curr rest ih =>
    intro acc
    simp only [attachDelimsGo, List.map_cons, List.sum_cons]
    refine le_trans (ih _) ?_
    have hbound : (((if !curr.isEmpty && curr.all isD then appendToLast acc curr
        else if !curr.isEmpty then acc ++ [curr]
        else acc)).map List.length).sum ≤ (acc.map List.length).sum + curr.length := by
      by_cases h1 : (!curr.isEmpty && curr.all isD) = true
      · simp only [h1, if_true]
        exact appendToLast_sumLen acc curr
      · simp only [h1, if_false]
        by_cases h2 : (!curr.isEmpty) = true
        · simp [h2]
        · simp [h2]
    omega

lemma splitCapture_sumLen (isD : Char → Bool) (text : Str) :
    (((splitCapture isD text).map List.length).sum) = text.length := by
  induction text with
  | nil => simp [splitCapture]
  | cons c rest ih =>
    simp only [splitCapture]
    cases hd : isD c with
    | true =>
      simp only [hd, if_true]
      rcases hr : splitCapture isD rest with - | ⟨p, tail⟩
      · rw [hr] at ih
        simp at ih ⊢
        exact List.length_eq_zero.mp ih.symm
      · rcases p with - | ⟨a, as⟩
        · rcases tail with - | ⟨drun, tail2⟩
          · rw [hr] at ih
            simp at ih ⊢
            exact List.length_eq_zero.mp ih.symm
          · rw [hr] at ih
            simp at ih ⊢
            omega
        · rw [hr] at ih
          simp at ih ⊢
          omega
    | false =>
      simp only [hd, Bool.false_eq_true, if_false]
      rcases hr : splitCapture isD rest with - | ⟨p, tail⟩
      · rw [hr] at ih
        simp at ih ⊢
        exact List.length_eq_zero.mp ih.symm
      · rw [hr] at ih
        simp at ih ⊢
        omega

lemma mem_length_lt_sum (parts : List Str) (hne : ∀ x ∈ parts, x ≠ [])
    (hlen : 2 ≤ parts.length) (p : Str) (hp : p ∈ parts) :
    p.length < ((parts.map List.length).sum) := by
  obtain ⟨s, t, rfl⟩ := List.append_of_mem hp
  have hst : s ≠ [] ∨ t ≠ [] := by
    rcases s with - | ⟨a, as⟩
    · right
      rcases t with - | ⟨b, bs⟩
      · simp at hlen
      · simp
    · left; simp
  have hone : 1 ≤ ((s.map List.length).sum) + ((t.map List.length).sum) := by
    rcases hst with hs | ht
    · rcases s with - | ⟨a, as⟩
      · simp at hs
      · have ha : a ≠ [] := hne a (by simp)
        have : 1 ≤ a.length := List.length_pos.mpr ha
        simp only [List.map_cons, List.sum_cons]
        omega
    · rcases t with - | ⟨b, bs⟩
      · simp at ht
      · have hb : b ≠ [] := hne b (by simp)
        have : 1 ≤ b.length := List.length_pos.mpr hb
        simp only [List.map_cons, List.sum_cons]
        omega
  simp only [List.map_append, List.sum_append, List.map_cons, List.sum_cons]
  omega

lemma attachDelims_part_length_lt (isD : Char → Bool) (text : Str)
    (hlen : 2 ≤ (attachDelims isD (splitCapture isD text)).length)
    (p : Str) (hp : p ∈ attachDelims isD (splitCapture isD text)) :
    p.length < text.length := by
  have hne : ∀ x ∈ attachDelims isD (splitCapture isD text), x ≠ [] :=
    attachDelimsGo_nonempty isD _ [] (by simp)
  have h1 := mem_length_lt_sum _ hne hlen p hp
  have h2 := attachDelimsGo_sumLen isD (splitCapture isD text) []
  have h3 := splitCapture_sumLen isD text
  simp only [List.map_nil, List.sum_nil, Nat.zero_add] at h2
  unfold attachDelims at h1
  omega

lemma regroupChunksGo_ok (split : Str → List Str) (maxLimit : Nat)
    (parts : List Str) :
    ∀ (chunks : List Str) (current : Str),
      (∀ p ∈ parts, getTokenCount p > maxLimit →
        ∀ c ∈ split p, chunkOk maxLimit c) →
      (∀ c ∈ chunks, chunkOk maxLimit c) →
      (current ≠ [] → getTokenCount current ≤ maxLimit) →
      ∀ c ∈ regroupChunksGo split maxLimit chunks current parts,
        chunkOk maxLimit c := by
  induction parts with
  | nil =>
    intro chunks current hparts hchunks hcur c hc
    simp only [regroupChunksGo] at hc
    by_cases h1 : current = []
    · simp only [h1, ne_eq, not_true_eq_false, if_false] at hc
      exact hchunks c hc
    · simp only [ne_eq, h1, not_false_eq_true, if_true] at hc
      rcases List.mem_append.mp hc with hc | hc
      · exact hchunks c hc
      · rw [List.mem_singleton.mp hc]
        exact ⟨h1, Or.inl (hcur h1)⟩
  | cons part rest ih =>
    intro chunks current hparts hchunks hcur c hc
    simp only [regroupChunksGo] at hc
    by_cases h1 : getTokenCount (current ++ part) ≤ maxLimit
    · simp only [h1, if_true] at hc
      refine ih chunks (current ++ part)
        (fun p hp => hparts p (List.mem_cons_of_mem part hp))
        hchunks (fun _ => h1) c hc
    · simp only [h1, if_false] at hc
      refine ih _ _
        (fun p hp => hparts p (List.mem_cons_of_mem part hp)) ?_ ?_ c hc
      · intro c2 hc2
        rcases List.mem_append.mp hc2 with hc2 | hc2
        · by_cases h2 : current = []
          · simp only [h2, ne_eq, not_true_eq_false, if_false] at hc2
            exact hchunks c2 hc2
          · simp only [ne_eq, h2, not_false_eq_true, if_true] at hc2
            rcases List.mem_append.mp hc2 with hc2 | hc2
            · exact hchunks c2 hc2
            · rw [List.mem_singleton.mp hc2]
              exact ⟨h2, Or.inl (hcur h2)⟩
        · by_cases h3 : getTokenCount part > maxLimit
          · simp only [h3, if_true] at hc2
            exact hparts part (List.mem_cons_self part rest) h3 c2 hc2
          · simp only [h3, if_false] at hc2
            simp at hc2
      · by_cases h3 : getTokenCount part > maxLimit
        · simp only [h3, if_true]
          intro h4
          simp at h4
        · simp only [h3, if_false]
          intro _
          omega

lemma getTokenCount_pos_ne_nil (p : Str) (h : 0 < getTokenCount p) : p ≠ [] := by
  intro hnil
  rw [hnil] at h
  simp [getTokenCount] at h

lemma splitSegmentRecursively_ok (fuel : Nat) :
    ∀ (maxLimit : Nat) (text : Str), text ≠ [] → text.length ≤ fuel →
      ∀ c ∈ splitSegmentRecursively fuel maxLimit text, chunkOk maxLimit c := by
  induction fuel with
  | zero =>
    intro maxLimit text hne hlen
    rcases text with - | ⟨a, as⟩
    · exact absurd rfl hne
    · simp at hlen
  | succ fuel ih =>
    intro maxLimit text hne hlen c hc
    simp only [splitSegmentRecursively] at hc
    by_cases h1 : getTokenCount text ≤ maxLimit
    · simp only [h1, if_true] at hc
      rw [List.mem_singleton.mp hc]
      exact ⟨hne, Or.inl h1⟩
    · simp only [h1, if_false] at hc
      by_cases h2 : (text.any isSentenceDelim &&
          decide ((attachDelims isSentenceDelim (splitCapture isSentenceDelim text)).length > 1)) = true
      · rw [if_pos h2] at hc
        have h2b : 2 ≤ (attachDelims isSentenceDelim (splitCapture isSentenceDelim text)).length := by
          have := (Bool.and_eq_true _ _).mp h2
          have h3 := of_decide_eq_true this.2
          omega
        refine regroupChunksGo_ok _ maxLimit _ [] [] ?_ (by simp) (by simp) c hc
        intro p hp htok c2 hc2
        have hplt : p.length < text.length :=
          attachDelims_part_length_lt isSentenceDelim text h2b p hp
        exact ih maxLimit p (getTokenCount_pos_ne_nil p (by omega)) (by omega) c2 hc2
      · rw [if_neg (by simpa using h2)] at hc
        by_cases h4 : (text.any isClauseDelim &&
            decide ((attachDelims isClauseDelim (splitCapture isClauseDelim text)).length > 1)) = true
        · rw [if_pos h4] at hc
          have h4b : 2 ≤ (attachDelims isClauseDelim (splitCapture isClauseDelim text)).length := by
            have := (Bool.and_eq_true _ _).mp h4
            have h5 := of_decide_eq_true this.2
            omega
          refine regroupChunksGo_ok _ maxLimit _ [] [] ?_ (by simp) (by simp) c hc
          intro p hp htok c2 hc2
          have hplt : p.length < text.length :=
            attachDelims_part_length_lt isClauseDelim text h4b p hp
          exact ih maxLimit p (getTokenCount_pos_ne_nil p (by omega)) (by omega) c2 hc2
        · rw [if_neg (by simpa using h4)] at hc
          by_cases h6 : text.length / 2 = 0
          · rw [if_pos h6] at hc
            rw [List.mem_singleton.mp hc]
            have : text.length = 1 := by
              have := List.length_pos.mpr hne
              omega
            exact ⟨hne, Or.inr this⟩
          · rw [if_neg h6] at hc
            have hpos : 1 ≤ text.length / 2 := Nat.one_le_iff_ne_zero.mpr h6
            have hlt : text.length / 2 < text.length := by
              have := List.length_pos.mpr hne
              omega
            rcases List.mem_append.mp hc with hc | hc
            · refine ih maxLimit (text.take (text.length / 2)) ?_ ?_ c hc
              · intro hnil
                have h7 := congrArg List.length hnil
                simp only [List.length_take, List.length_nil] at h7
                omega
              · simp only [List.length_take]
                omega
            · refine ih maxLimit (text.drop (text.length / 2)) ?_ ?_ c hc
              · intro hnil
                have := congrArg List.length hnil
                simp [List.length_drop] at this
                omega
              · simp [List.length_drop]
                omega

lemma splitTextIntoChunksGo_ok (maxLimit : Nat) (paras : List Str) :
    ∀ (chunks : List Str) (current : Str),
      (∀ c ∈ chunks, chunkOk maxLimit c) →
      (current ≠ [] → getTokenCount current ≤ maxLimit) →
      ∀ c ∈ splitTextIntoChunksGo maxLimit chunks current paras,
        chunkOk maxLimit c := by
  induction paras with
  | nil =>
    intro chunks current hchunks hcur c hc
    simp only [splitTextIntoChunksGo] at hc
    by_cases h1 : current = []
    · simp only [h1, ne_eq, not_true_eq_false, if_false] at hc
      exact hchunks c hc
    · simp only [ne_eq, h1, not_false_eq_true, if_true] at hc
      rcases List.mem_append.mp hc with hc | hc
      · exact hchunks c hc
      · rw [List.mem_singleton.mp hc]
        exact ⟨h1, Or.inl (hcur h1)⟩
  | cons para rest ih =>
    intro chunks current hchunks hcur c hc
    simp only [splitTextIntoChunksGo] at hc
    by_cases h1 : getTokenCount (current ++ para) ≤ maxLimit
    · simp only [h1, if_true] at hc
      exact ih chunks (current ++ para) hchunks (fun _ => h1) c hc
    · simp only [h1, if_false] at hc
      refine ih _ _ ?_ ?_ c hc
      · intro c2 hc2
        rcases List.mem_append.mp hc2 with hc2 | hc2
        · by_cases h2 : current = []
          · simp only [h2, ne_eq, not_true_eq_false, if_false] at hc2
            exact hchunks c2 hc2
          · simp only [ne_eq, h2, not_false_eq_true, if_true] at hc2
            rcases List.mem_append.mp hc2 with hc2 | hc2
            · exact hchunks c2 hc2
            · rw [List.mem_singleton.mp hc2]
              exact ⟨h2, Or.inl (hcur h2)⟩
        · by_cases h3 : getTokenCount para > maxLimit
          · simp only [h3, if_true] at hc2
            exact splitSegmentRecursively_ok para.length maxLimit para
              (getTokenCount_pos_ne_nil para (by omega)) (le_refl _) c2 hc2
          · simp only [h3, if_false] at hc2
            simp at hc2
      · by_cases h3 : getTokenCount para > maxLimit
        · simp only [h3, if_true]
          intro h4
          simp at h4
        · simp only [h3, if_false]
          intro _
          omega

/-- C3 (counterexample): on the empty text with a positive budget the chunker
returns a single empty chunk, so not every returned chunk is nonempty. -/
theorem splitIntoChunks_empty_text_empty_chunk :
    ([] : Str) ∈ splitTextIntoChunks [] 5 ∧ 0 < 5 := by
  decide

/-- C3 (amended): for every nonempty text and positive budget, every chunk
returned by splitTextIntoChunks is nonempty, and its token estimate is within
the budget except when the chunk is a single character, the unsplittable unit
reached by repeated midpoint splitting. -/
theorem splitIntoChunks_chunks_wellformed (text : Str) (maxTokensPerChunk : Nat)
    (hne : text ≠ []) (hpos : 0 < maxTokensPerChunk) :
    ∀ c ∈ splitTextIntoChunks text maxTokensPerChunk,
      c ≠ [] ∧ (getTokenCount c ≤ maxTokensPerChunk ∨ c.length = 1) := by
  intro c hc
  unfold splitTextIntoChunks at hc
  by_cases h1 : getTokenCount text ≤ maxTokensPerChunk
  · simp only [h1, if_true, List.mem_singleton] at hc
    rw [hc]
    exact ⟨hne, Or.inl h1⟩
  · simp only [h1, if_false] at hc
    exact splitTextIntoChunksGo_ok maxTokensPerChunk _ [] []
      (by simp) (by simp) c hc

theorem splitIntoChunks_chunks_wellformed_witness :
    ('a' :: [] : Str) ≠ [] ∧ (getTokenCount ('a' :: []) ≤ 2 ∨ ('a' :: [] : Str).length = 1) :=
  splitIntoChunks_chunks_wellformed ('a' :: []) 2 (by decide) (by decide)
    ('a' :: []) (by decide)

/-- C4: evaluation of the chunker at a failing input.  With budget 1 the text
".a.b" is split into the chunks "a", ".", "b": the reducer that re-attaches
captured sentence delimiters discards a delimiter run that has no preceding
piece, so the leading period of the text is dropped and concatenating the
chunks (the reconstruction with the inserted separators removed) no longer
reproduces the source text. -/
theorem splitIntoChunks_loses_leading_delimiter :
    splitTextIntoChunks ('.' :: 'a' :: '.' :: 'b' :: []) 1 =
      [('a' :: []), ('.' :: []), ('b' :: [])] ∧
    (splitTextIntoChunks ('.' :: 'a' :: '.' :: 'b' :: []) 1).flatten ≠
      ('.' :: 'a' :: '.' :: 'b' :: []) ∧ 0 < 1 := by
  decide

lemma takeRun_fst_length_le (p : Char → Bool) (l : Str) :
    (takeRun p l).1.length ≤ l.length := by
  conv_rhs => rw [← takeRun_append p l]
  simp

lemma matchToks_le (toks : List PatTok) :
    ∀ (s : Str) (n : Nat), matchToks toks s = some n → n ≤ s.length := by
  induction toks with
  | nil =>
    intro s n h
    simp only [matchToks, Option.some.injEq] at h
    omega
  | cons tok rest ih =>
    intro s n h
    cases tok with
    | lit c =>
      cases s with
      | nil => simp [matchToks] at h
      | cons x xs =>
        simp only [matchToks] at h
        split at h
        · rcases hmt : matchToks rest xs with - | a
          · rw [hmt] at h
            simp at h
          · rw [hmt] at h
            simp only [Option.map_some', Option.some.injEq] at h
            have := ih xs a hmt
            simp only [List.length_cons]
            omega
        · simp at h
    | ws =>
      simp only [matchToks] at h
      split at h
      · simp at h
      · rcases hmt : matchToks rest (s.drop (takeRun isSpaceChar s).1.length) with - | a
        · rw [hmt] at h
          simp at h
        · rw [hmt] at h
          simp only [Option.map_some', Option.some.injEq] at h
          have h1 := ih _ a hmt
          have h2 := takeRun_fst_length_le isSpaceChar s
          simp only [List.length_drop] at h1
          omega
    | openParen =>
      simp only [matchToks] at h
      split at h
      next x xs heq =>
        split at h
        · rcases hmt : matchToks rest (xs.drop (takeRun isSpaceChar xs).1.length) with - | a
          · rw [hmt] at h
            simp at h
          · rw [hmt] at h
            simp only [Option.map_some', Option.some.injEq] at h
            have h1 := ih _ a hmt
            have h2 := takeRun_fst_length_le isSpaceChar s
            have h3 := takeRun_fst_length_le isSpaceChar xs
            have h4 := congrArg List.length heq
            simp only [List.length_drop, List.length_cons] at h4
            simp only [List.length_drop] at h1
            omega
        · simp at h
      next heq => simp at h
    | closeParen =>
      simp only [matchToks] at h
      split at h
      next x xs heq =>
        split at h
        · rcases hmt : matchToks rest (xs.drop (takeRun isSpaceChar xs).1.length) with - | a
          · rw [hmt] at h
            simp at h
          · rw [hmt] at h
            simp only [Option.map_some', Option.some.injEq] at h
            have h1 := ih _ a hmt
            have h2 := takeRun_fst_length_le isSpaceChar s
            have h3 := takeRun_fst_length_le isSpaceChar xs
            have h4 := congrArg List.length heq
            simp only [List.length_drop, List.length_cons] at h4
            simp only [List.length_drop] at h1
            omega
        · simp at h
      next heq => simp at h

lemma matchesEsBoundary_length (s : Str) (h : matchesEsBoundary s = true) :
    2 ≤ s.length := by
  rcases s with - | ⟨x, - | ⟨y, ys⟩⟩
  · simp [matchesEsBoundary] at h
  · simp [matchesEsBoundary] at h
  · simp only [List.length_cons]
    omega

lemma matchesSBoundary_length (s : Str) (h : matchesSBoundary s = true) :
    1 ≤ s.length := by
  rcases s with - | ⟨x, xs⟩
  · simp [matchesSBoundary] at h
  · simp only [List.length_cons]
    omega

lemma pluralBoundarySuffix_le (s : Str) (k : Nat)
    (h : pluralBoundarySuffix s = some k) : k ≤ s.length := by
  unfold pluralBoundarySuffix at h
  split_ifs at h with h1 h2 h3
  · have := matchesEsBoundary_length s h1
    simp only [Option.some.injEq] at h
    omega
  · have := matchesSBoundary_length s h2
    simp only [Option.some.injEq] at h
    omega
  · simp only [Option.some.injEq] at h
    omega

lemma matchPatternAt_le (p : Pattern) (prev : Option Char) (s : Str) (n : Nat)
    (h : matchPatternAt p prev s = some n) : n ≤ s.length := by
  simp only [matchPatternAt] at h
  split at h
  · simp at h
  · split at h
    · simp at h
    next m hmt =>
      have hm := matchToks_le p.toks s m hmt
      split at h
      · split at h
        · simp at h
        next k hps =>
          simp only [Option.some.injEq] at h
          have hk := pluralBoundarySuffix_le _ _ hps
          simp only [List.length_drop] at hk
          omega
      · simp only [Option.some.injEq] at h
        omega

lemma firstAlt_le (descs : List Descriptor) (prev : Option Char) (s : Str)
    (n : Nat) (h : firstAlt descs prev s = some n) : n ≤ s.length := by
  induction descs with
  | nil => simp [firstAlt] at h
  | cons d rest ih =>
    simp only [firstAlt] at h
    rcases h2 : matchPatternAt d.pattern prev s with - | m
    · rw [h2] at h
      exact ih h
    · rw [h2] at h
      simp only [Option.some.injEq] at h
      subst h
      exact matchPatternAt_le _ _ _ _ h2

lemma execScan_wf (descs : List Descriptor) (fuel : Nat) :
    ∀ (prev : Option Char) (s : Str) (i : Nat), ∀ m ∈ execScan descs fuel prev s i,
      i ≤ m.start ∧ m.start < m.stop ∧ m.stop ≤ i + s.length ∧
        m.text = (s.drop (m.start - i)).take (m.stop - m.start) := by
  induction fuel with
  | zero =>
    intro prev s i m hm
    simp [execScan] at hm
  | succ fuel ih =>
    intro prev s i m hm
    cases s with
    | nil => simp [execScan] at hm
    | cons c rest =>
      simp only [execScan] at hm
      split at hm
      · have h0 := ih (some c) rest (i + 1) m hm
        obtain ⟨ha, hb, hc, hd⟩ := h0
        refine ⟨by omega, hb, by simp only [List.length_cons]; omega, ?_⟩
        rw [hd]
        have hsub : m.start - i = (m.start - (i + 1)) + 1 := by omega
        rw [hsub]
        rw [List.drop_succ_cons]
      next n hfa =>
        split at hm
        · have h0 := ih (some c) rest (i + 1) m hm
          obtain ⟨ha, hb, hc, hd⟩ := h0
          refine ⟨by omega, hb, by simp only [List.length_cons]; omega, ?_⟩
          rw [hd]
          have hsub : m.start - i = (m.start - (i + 1)) + 1 := by omega
          rw [hsub]
          rw [List.drop_succ_cons]
        next hn0 =>
          have hn : n ≤ (c :: rest).length := firstAlt_le _ _ _ _ hfa
          rcases List.mem_append.mp hm with hm1 | hm1
          · split at hm1
            next d hfind =>
              rw [List.mem_singleton.mp hm1]
              dsimp only
              refine ⟨le_refl i, by omega, by omega, ?_⟩
              simp
            next hfind =>
              simp at hm1
          · have h0 := ih ((c :: rest).take n).getLast? ((c :: rest).drop n) (i + n) m hm1
            obtain ⟨ha, hb, hc, hd⟩ := h0
            simp only [List.length_drop] at hc
            refine ⟨by omega, hb, by omega, ?_⟩
            rw [hd]
            rw [List.drop_drop]
            have hsub : n + (m.start - (i + n)) = m.start - i := by omega
            rw [hsub]

lemma FDisj_symm : ∀ {a b : FinalMatch}, FDisj a b → FDisj b a := by
  intro a b h
  rcases h with h | h
  · exact Or.inr h
  · exact Or.inl h

lemma findMatches_wf (text : Str) (termMap : TermMap) (mode : SegMode) :
    ∀ m ∈ findMatches text termMap mode, MatchWF text m.start m.stop m.text := by
  intro m hm
  simp only [findMatches] at hm
  split at hm
  · simp at hm
  · have h := execScan_wf _ text.length none text 0 m hm
    obtain ⟨ha, hb, hc, hd⟩ := h
    refine ⟨hb, by omega, ?_⟩
    simpa using hd

lemma acceptMatches_mem (kind : MatchKind) :
    ∀ (ms : List RawMatch) (acc : List FinalMatch),
      ∀ f ∈ acceptMatches kind acc ms,
        f ∈ acc ∨ ∃ m ∈ ms, f = ⟨m.start, m.stop, m.term, m.text, kind⟩ := by
  intro ms
  induction ms with
  | nil =>
    intro acc f hf
    simp only [acceptMatches] at hf
    exact Or.inl hf
  | cons m rest ih =>
    intro acc f hf
    simp only [acceptMatches] at hf
    split at hf
    · rcases ih acc f hf with h | ⟨m2, hm2, rfl⟩
      · exact Or.inl h
      · exact Or.inr ⟨m2, List.mem_cons_of_mem m hm2, rfl⟩
    · rcases ih _ f hf with h | ⟨m2, hm2, rfl⟩
      · rcases List.mem_append.mp h with h | h
        · exact Or.inl h
        · exact Or.inr ⟨m, List.mem_cons_self m rest, List.mem_singleton.mp h⟩
      · exact Or.inr ⟨m2, List.mem_cons_of_mem m hm2, rfl⟩

lemma acceptMatches_pairwise (kind : MatchKind) :
    ∀ (ms : List RawMatch) (acc : List FinalMatch),
      (∀ m ∈ ms, m.start < m.stop) → (∀ f ∈ acc, f.start < f.stop) →
      List.Pairwise FDisj acc →
      List.Pairwise FDisj (acceptMatches kind acc ms) := by
  intro ms
  induction ms with
  | nil =>
    intro acc _ _ hpw
    simpa [acceptMatches] using hpw
  | cons m rest ih =>
    intro acc hms hacc hpw
    simp only [acceptMatches]
    split
    · exact ih acc (fun x hx => hms x (List.mem_cons_of_mem m hx)) hacc hpw
    next hocc =>
      have hmpos : m.start < m.stop := hms m (List.mem_cons_self m rest)
      have hdisj : ∀ a ∈ acc, FDisj a ⟨m.start, m.stop, m.term, m.text, kind⟩ := by
        intro a ha
        have hocc2 : occupiedIn acc m.start m.stop = false := by
          simpa using hocc
        unfold occupiedIn at hocc2
        rw [Bool.and_eq_false_iff] at hocc2
        unfold FDisj
        dsimp only
        rcases hocc2 with h | h
        · simp only [decide_eq_false_iff_not, not_lt] at h
          omega
        · rw [List.any_eq_false] at h
          have h2 := h a ha
          simp only [Bool.and_eq_true, decide_eq_true_eq, not_and] at h2
          have hapos := hacc a ha
          omega
      refine ih _ (fun x hx => hms x (List.mem_cons_of_mem m hx)) ?_ ?_
      · intro f hf
        rcases List.mem_append.mp hf with hf | hf
        · exact hacc f hf
        · rw [List.mem_singleton.mp hf]
          exact hmpos
      · rw [List.pairwise_append]
        exact ⟨hpw, List.pairwise_singleton _ _, fun a ha b hb => by
          rw [List.mem_singleton.mp hb]
          exact hdisj a ha⟩

lemma drop_eq_take_append (text : Str) (a b : Nat) (hab : a ≤ b) :
    text.drop a = (text.drop a).take (b - a) ++ text.drop b := by
  conv_lhs => rw [← List.take_append_drop (b - a) (text.drop a)]
  rw [List.drop_drop]
  have h : a + (b - a) = b := by omega
  rw [h]

lemma assembleGo_concat (mode : SegMode) (text : Str) :
    ∀ (ms : List FinalMatch) (lastIndex segIndex : Nat)
      (counts : List (String × Nat)),
      lastIndex ≤ text.length →
      (∀ m ∈ ms, lastIndex ≤ m.start ∧ MatchWF text m.start m.stop m.text) →
      List.Pairwise finalMatchLe ms →
      List.Pairwise FDisj ms →
      ((assembleGo mode text ms lastIndex segIndex counts).map
        (fun s => s.text)).flatten = text.drop lastIndex := by
  intro ms
  induction ms with
  | nil =>
    intro lastIndex segIndex counts hlast _ _ _
    simp only [assembleGo]
    split
    · simp
    next h =>
      have h2 : lastIndex = text.length := by omega
      simp [h2, List.drop_length]
  | cons m rest ih =>
    intro lastIndex segIndex counts hlast hwf hsorted hdisj
    obtain ⟨hstart_ge, hpos, hstop, htext⟩ := hwf m (List.mem_cons_self m rest)
    have hrest : ∀ r ∈ rest, m.stop ≤ r.start ∧ MatchWF text r.start r.stop r.text := by
      intro r hr
      obtain ⟨-, hrwf⟩ := hwf r (List.mem_cons_of_mem m hr)
      refine ⟨?_, hrwf⟩
      have hle : finalMatchLe m r := (List.pairwise_cons.mp hsorted).1 r hr
      have hd : FDisj m r := (List.pairwise_cons.mp hdisj).1 r hr
      rcases hd with hd | hd
      · exact hd
      · exfalso
        have := hrwf.1
        unfold finalMatchLe at hle
        omega
    by_cases hgap : lastIndex < m.start
    · have hrec := ih m.stop (segIndex + 1 + 1)
        (countsSet counts m.term.id (countsGet counts m.term.id + 1)) hstop
        (fun r hr => ⟨(hrest r hr).1, (hrest r hr).2⟩)
        (List.pairwise_cons.mp hsorted).2 (List.pairwise_cons.mp hdisj).2
      simp only [assembleGo, if_pos hgap, List.map_append, List.map_cons,
        List.flatten_append, List.flatten_cons, List.map_nil, List.flatten_nil]
      rw [hrec]
      simp only [List.append_nil]
      conv_rhs => rw [drop_eq_take_append text lastIndex m.start (le_of_lt hgap)]
      conv_rhs => rw [drop_eq_take_append text m.start m.stop (le_of_lt hpos)]
      rw [← htext]
    · have hrec := ih m.stop (segIndex + 1)
        (countsSet counts m.term.id (countsGet counts m.term.id + 1)) hstop
        (fun r hr => ⟨(hrest r hr).1, (hrest r hr).2⟩)
        (List.pairwise_cons.mp hsorted).2 (List.pairwise_cons.mp hdisj).2
      simp only [assembleGo, if_neg hgap, List.map_cons, List.flatten_cons,
        List.nil_append, List.map_nil, List.flatten_nil]
      rw [hrec]
      have heq : lastIndex = m.start := by omega
      rw [heq]
      conv_rhs => rw [drop_eq_take_append text m.start m.stop (le_of_lt hpos)]
      rw [← htext]

lemma assembleGo_matched (mode : SegMode) (text : Str) :
    ∀ (ms : List FinalMatch) (lastIndex segIndex : Nat)
      (counts : List (String × Nat)),
      (assembleGo mode text ms lastIndex segIndex counts).filterMap
          (fun s => s.matchedTerm.map (fun _ => s.text)) =
        ms.map (fun m => m.text) := by
  intro ms
  induction ms with
  | nil =>
    intro lastIndex segIndex counts
    simp only [assembleGo]
    split
    · simp
    · simp
  | cons m rest ih =>
    intro lastIndex segIndex counts
    by_cases hgap : lastIndex < m.start
    · simp only [assembleGo, if_pos hgap, List.filterMap_append, List.filterMap_cons,
        List.map_cons]
      simp [ih]
    · simp only [assembleGo, if_neg hgap, List.nil_append, List.filterMap_cons,
        List.map_cons]
      simp [ih]

lemma assembleGo_types (mode : SegMode) (text : Str) :
    ∀ (ms : List FinalMatch) (lastIndex segIndex : Nat)
      (counts : List (String × Nat)),
      (∀ m ∈ ms, m.type = MatchKind.strong) →
      ∀ s ∈ assembleGo mode text ms lastIndex segIndex counts,
        s.matchedTerm.isSome → s.matchType = some MatchKind.strong := by
  intro ms
  induction ms with
  | nil =>
    intro lastIndex segIndex counts _ s hs
    simp only [assembleGo] at hs
    split at hs
    · rw [List.mem_singleton.mp hs]
      intro h
      simp at h
    · simp at hs
  | cons m rest ih =>
    intro lastIndex segIndex counts htypes s hs
    by_cases hgap : lastIndex < m.start
    · simp only [assembleGo, if_pos hgap, List.cons_append, List.nil_append,
        List.mem_cons] at hs
      rcases hs with rfl | rfl | hs
      · intro h
        simp at h
      · intro _
        simp only [Option.some.injEq]
        exact htypes m (List.mem_cons_self m rest)
      · exact ih _ _ _ (fun x hx => htypes x (List.mem_cons_of_mem m hx)) s hs
    · simp only [assembleGo, if_neg hgap, List.nil_append, List.mem_cons] at hs
      rcases hs with rfl | hs
      · intro _
        simp only [Option.some.injEq]
        exact htypes m (List.mem_cons_self m rest)
      · exact ih _ _ _ (fun x hx => htypes x (List.mem_cons_of_mem m hx)) s hs

lemma finalMatchesOf_facts (text : Str) (terms : List Term) (mode : SegMode) :
    (∀ f ∈ finalMatchesOf text terms mode,
      MatchWF text f.start f.stop f.text ∧ f.type = MatchKind.strong) ∧
    List.Pairwise FDisj (finalMatchesOf text terms mode) := by
  have hraw1 : ∀ m ∈ List.insertionSort rawMatchLe
      (findMatches text (buildMapsGo mode terms [] []).1 mode),
      MatchWF text m.start m.stop m.text := by
    intro m hm
    exact findMatches_wf _ _ _ m ((List.mem_insertionSort _).mp hm)
  have hraw2 : ∀ m ∈ List.insertionSort rawMatchLe
      (findMatches text (buildMapsGo mode terms [] []).2 mode),
      MatchWF text m.start m.stop m.text := by
    intro m hm
    exact findMatches_wf _ _ _ m ((List.mem_insertionSort _).mp hm)
  have hacc1mem : ∀ f ∈ acceptMatches MatchKind.strong []
      (List.insertionSort rawMatchLe
        (findMatches text (buildMapsGo mode terms [] []).1 mode)),
      MatchWF text f.start f.stop f.text ∧ f.type = MatchKind.strong := by
    intro f hf
    rcases acceptMatches_mem MatchKind.strong _ _ f hf with h0 | ⟨m2, hm2, rfl⟩
    · simp at h0
    · exact ⟨hraw1 m2 hm2, rfl⟩
  have hpw1 : List.Pairwise FDisj (acceptMatches MatchKind.strong []
      (List.insertionSort rawMatchLe
        (findMatches text (buildMapsGo mode terms [] []).1 mode))) :=
    acceptMatches_pairwise MatchKind.strong _ []
      (fun m hm => (hraw1 m hm).1) (by simp) (by simp)
  constructor
  · intro f hf
    simp only [finalMatchesOf] at hf
    split at hf
    · rcases acceptMatches_mem MatchKind.strong _ _ f hf with h1 | ⟨m2, hm2, rfl⟩
      · exact hacc1mem f h1
      · exact ⟨hraw2 m2 hm2, rfl⟩
    · exact hacc1mem f hf
  · simp only [finalMatchesOf]
    split
    · exact acceptMatches_pairwise MatchKind.strong _ _
        (fun m hm => (hraw2 m hm).1)
        (fun f hf => (hacc1mem f hf).1.1) hpw1
    · exact hpw1

/-- C2: the segments of buildTermSegments laid end to end reproduce the
input text exactly, the accepted match spans (from which the matched
segments are emitted, in order) are pairwise non-intersecting, and the
matched segments' texts are exactly the accepted matches' texts in
order. -/
theorem segment_reconstruction (text : Str) (terms : List Term) (mode : SegMode) :
    ((buildTermSegments text terms mode).map (fun s => s.text)).flatten = text ∧
    List.Pairwise FDisj
      (List.insertionSort finalMatchLe (finalMatchesOf text terms mode)) ∧
    (buildTermSegments text terms mode).filterMap
        (fun s => s.matchedTerm.map (fun _ => s.text)) =
      (List.insertionSort finalMatchLe (finalMatchesOf text terms mode)).map
        (fun m => m.text) := by
  have hfacts := finalMatchesOf_facts text terms mode
  have hpw : List.Pairwise FDisj
      (List.insertionSort finalMatchLe (finalMatchesOf text terms mode)) :=
    hfacts.2.perm (List.perm_insertionSort _ _).symm (fun h => FDisj_symm h)
  have hsorted : List.Pairwise finalMatchLe
      (List.insertionSort finalMatchLe (finalMatchesOf text terms mode)) :=
    List.sorted_insertionSort finalMatchLe _
  refine ⟨?_, hpw, ?_⟩
  · unfold buildTermSegments
    split
    next h => simp [h]
    next h =>
      rw [assembleGo_concat mode text _ 0 0 [] (Nat.zero_le _)
        (fun m hm => ⟨Nat.zero_le _,
          (hfacts.1 m ((List.mem_insertionSort _).mp hm)).1⟩) hsorted hpw]
      simp
  · unfold buildTermSegments
    split
    next h =>
      have hempty : List.insertionSort finalMatchLe (finalMatchesOf text terms mode) = [] := by
        rw [List.eq_nil_iff_forall_not_mem]
        intro m hm
        have hwf := (hfacts.1 m ((List.mem_insertionSort _).mp hm)).1
        obtain ⟨h1, h2, -⟩ := hwf
        rw [h] at h2
        simp at h2
        omega
      rw [hempty]
      simp
    next h =>
      rw [assembleGo_matched]

/-- C1 (amended): every matched segment emitted by buildTermSegments is
tagged strong, whether its match came from the strong pass (primary label
or alias) or from the weak core-concept pass: the source deliberately tags
core matches strong as well. -/
theorem segments_matched_tagged_strong (text : Str) (terms : List Term)
    (mode : SegMode) :
    ∀ s ∈ buildTermSegments text terms mode, s.matchedTerm.isSome →
      s.matchType = some MatchKind.strong := by
  intro s hs hsome
  unfold buildTermSegments at hs
  split at hs
  · simp at hs
  · exact assembleGo_types mode text _ 0 0 []
      (fun m hm =>
        ((finalMatchesOf_facts text terms mode).1 m ((List.mem_insertionSort _).mp hm)).2)
      s hs hsome

/-- C1 (counterexample): on the text "ab" the only match of
exampleCoreTerm is found via the weak map (its core string "ab"; the
primary label "zzz" does not occur and there are no aliases), yet the
emitted segment carries match kind strong, not weak. -/
theorem weak_found_match_tagged_strong :
    buildTermSegments ('a' :: 'b' :: []) [exampleCoreTerm] SegMode.source =
      [⟨"seg_source_0", 'a' :: 'b' :: [], some exampleCoreTerm, some 0,
        some MatchKind.strong⟩] ∧
    normalizeKey exampleCoreTerm.coreCN = 'a' :: 'b' :: [] ∧
    normalizeKey exampleCoreTerm.chinese_term ≠ 'a' :: 'b' :: [] ∧
    exampleCoreTerm.related_terms = [] ∧
    MatchKind.strong ≠ MatchKind.weak := by
  decide

theorem segments_matched_tagged_strong_witness :
    (⟨"seg_source_0", 'a' :: 'b' :: [], some exampleCoreTerm, some 0,
      some MatchKind.strong⟩ : TextSegment).matchType = some MatchKind.strong :=
  segments_matched_tagged_strong ('a' :: 'b' :: []) [exampleCoreTerm]
    SegMode.source _ (by decide) (by decide)

/-- C10: on the empty text buildTermSegments returns the empty segment
list for every terms list and mode. -/
theorem segment_empty_text_empty (terms : List Term) (mode : SegMode) :
    buildTermSegments [] terms mode = [] := by
  simp [buildTermSegments]

/-- C9 (counterexample): with an empty terms list and the empty text the
segmenter returns no segments at all, not a single plain segment. -/
theorem segment_empty_text_not_single :
    (buildTermSegments [] [] SegMode.source).length ≠ 1 := by
  decide

/-- C9 (amended): for every nonempty text and mode, an empty terms list
yields a single plain segment holding the whole text. -/
theorem segment_empty_terms_single_plain (text : Str) (mode : SegMode)
    (h : text ≠ []) :
    buildTermSegments text [] mode =
      [⟨mkSegId mode 0, text, none, none, none⟩] := by
  unfold buildTermSegments
  rw [if_neg h]
  have h1 : finalMatchesOf text [] mode = [] := by
    simp [finalMatchesOf, buildMapsGo, findMatches, buildDescriptorsGo,
      List.insertionSort, acceptMatches]
  rw [h1]
  simp only [List.insertionSort, assembleGo]
  rw [if_pos (List.length_pos.mpr h)]
  simp

theorem segment_empty_terms_single_plain_witness :
    buildTermSegments ('a' :: []) [] SegMode.source =
      [⟨mkSegId SegMode.source 0, 'a' :: [], none, none, none⟩] :=
  segment_empty_terms_single_plain ('a' :: []) SegMode.source (by decide)

/-- C5: retry policy of the resilient completion wrapper.  With a
configured key: two quota-classified failures followed by a success return
the successful text after backoffs of 1s and 2s and surface no error; four
quota-classified failures surface QuotaExceeded after backoffs 1s, 2s, 4s;
a non-quota failure is surfaced immediately with no retry and no backoff;
QuotaExceeded is surfaced only when all four attempts failed with
quota-classified errors; and a non-quota failure on attempt k, after k
quota-classified failures, is surfaced immediately with exactly the k
backoffs already performed. -/
theorem getCompletion_retry_policy (apiKey : Str)
    (attemptOutcome : Nat → CompletionOutcome) (hkey : apiKey ≠ []) :
    (∀ e0 e1 s, attemptOutcome 0 = CompletionOutcome.err e0 →
      isQuotaError e0 = true →
      attemptOutcome 1 = CompletionOutcome.err e1 →
      isQuotaError e1 = true →
      attemptOutcome 2 = CompletionOutcome.ok s →
      getCompletion apiKey attemptOutcome = (Except.ok s, [1000, 2000])) ∧
    ((∀ i, i ≤ 3 → ∃ e, attemptOutcome i = CompletionOutcome.err e ∧
        isQuotaError e = true) →
      getCompletion apiKey attemptOutcome =
        (Except.error CompletionError.quotaExceeded, [1000, 2000, 4000])) ∧
    (∀ e, attemptOutcome 0 = CompletionOutcome.err e → isQuotaError e = false →
      getCompletion apiKey attemptOutcome =
        (Except.error (CompletionError.other e.message), [])) ∧
    ((getCompletion apiKey attemptOutcome).1 =
        Except.error CompletionError.quotaExceeded →
      ∀ i, i ≤ 3 → ∃ e, attemptOutcome i = CompletionOutcome.err e ∧
        isQuotaError e = true) ∧
    (∀ e k, k ≤ 3 →
      (∀ j, j < k → ∃ ej, attemptOutcome j = CompletionOutcome.err ej ∧
        isQuotaError ej = true) →
      attemptOutcome k = CompletionOutcome.err e → isQuotaError e = false →
      getCompletion apiKey attemptOutcome =
        (Except.error (CompletionError.other e.message),
          (List.range k).map (fun j => 1000 * 2 ^ j))) := by
  refine ⟨?_, ?_, ?_, ?_, ?_⟩
  · intro e0 e1 s h0 q0 h1 q1 h2
    unfold getCompletion
    rw [if_neg hkey]
    simp [getCompletionGo, h0, q0, h1, q1, h2, MAX_RETRIES]
  · intro hall
    obtain ⟨e0, h0, q0⟩ := hall 0 (by omega)
    obtain ⟨e1, h1, q1⟩ := hall 1 (by omega)
    obtain ⟨e2, h2, q2⟩ := hall 2 (by omega)
    obtain ⟨e3, h3, q3⟩ := hall 3 (by omega)
    unfold getCompletion
    rw [if_neg hkey]
    simp [getCompletionGo, h0, q0, h1, q1, h2, q2, h3, q3, MAX_RETRIES]
  · intro e h0 q0
    unfold getCompletion
    rw [if_neg hkey]
    simp [getCompletionGo, h0, q0]
  · intro hq i hi
    unfold getCompletion at hq
    rw [if_neg hkey] at hq
    cases h0 : attemptOutcome 0 with
    | ok s => simp [getCompletionGo, h0] at hq
    | err e0 =>
      by_cases q0 : isQuotaError e0 = true
      · cases h1 : attemptOutcome 1 with
        | ok s => simp [getCompletionGo, h0, q0, h1, MAX_RETRIES] at hq
        | err e1 =>
          by_cases q1 : isQuotaError e1 = true
          · cases h2 : attemptOutcome 2 with
            | ok s => simp [getCompletionGo, h0, q0, h1, q1, h2, MAX_RETRIES] at hq
            | err e2 =>
              by_cases q2 : isQuotaError e2 = true
              · cases h3 : attemptOutcome 3 with
                | ok s =>
                  simp [getCompletionGo, h0, q0, h1, q1, h2, q2, h3, MAX_RETRIES] at hq
                | err e3 =>
                  by_cases q3 : isQuotaError e3 = true
                  · interval_cases i
                    · exact ⟨e0, h0, q0⟩
                    · exact ⟨e1, h1, q1⟩
                    · exact ⟨e2, h2, q2⟩
                    · exact ⟨e3, h3, q3⟩
                  · simp [getCompletionGo, h0, q0, h1, q1, h2, q2, h3, q3,
                      MAX_RETRIES] at hq
              · simp [getCompletionGo, h0, q0, h1, q1, h2, q2, MAX_RETRIES] at hq
          · simp [getCompletionGo, h0, q0, h1, q1, MAX_RETRIES] at hq
      · simp [getCompletionGo, h0, q0] at hq
  · intro e k hk hprev hk0 hq0
    unfold getCompletion
    rw [if_neg hkey]
    interval_cases k
    · simp [getCompletionGo, hk0, hq0, List.range_zero]
    · obtain ⟨e0, h0, q0⟩ := hprev 0 (by omega)
      simp [getCompletionGo, h0, q0, hk0, hq0, MAX_RETRIES, List.range_succ]
    · obtain ⟨e0, h0, q0⟩ := hprev 0 (by omega)
      obtain ⟨e1, h1, q1⟩ := hprev 1 (by omega)
      simp [getCompletionGo, h0, q0, h1, q1, hk0, hq0, MAX_RETRIES,
        List.range_succ]
    · obtain ⟨e0, h0, q0⟩ := hprev 0 (by omega)
      obtain ⟨e1, h1, q1⟩ := hprev 1 (by omega)
      obtain ⟨e2, h2, q2⟩ := hprev 2 (by omega)
      simp [getCompletionGo, h0, q0, h1, q1, h2, q2, hk0, hq0, MAX_RETRIES,
        List.range_succ]

theorem getCompletion_retry_policy_witness :
    getCompletion ('k' :: []) scenarioOracle =
      (Except.ok ('h' :: 'i' :: []), [1000, 2000]) :=
  (getCompletion_retry_policy ('k' :: []) scenarioOracle (by decide)).1
    ⟨some 429, none, none, none, []⟩ ⟨some 429, none, none, none, []⟩
    ('h' :: 'i' :: []) rfl (by decide) rfl (by decide) rfl

lemma alignTermsWithLLM_unparsable (s t : Str) (terms : List Term)
    (o : AlignOutcome)
    (ho : o = AlignOutcome.failed ∨ o = AlignOutcome.parsedNonArray) :
    alignTermsWithLLM s t terms o = [] := by
  rcases ho with rfl | rfl <;>
    · unfold alignTermsWithLLM
      split_ifs <;> rfl

lemma alignTermsWithLLM_emptyArray (s t : Str) (terms : List Term) :
    alignTermsWithLLM s t terms (AlignOutcome.parsedArray []) = [] := by
  unfold alignTermsWithLLM
  split_ifs <;> rfl

lemma translateChunksGo_align_irrelevant (oracle : StepOracle)
    (relevantTerms : List Term)
    (hfail : ∀ i, oracle.align i = AlignOutcome.failed ∨
      oracle.align i = AlignOutcome.parsedNonArray) :
    ∀ (chunks : List Str) (i so t : Nat) (rs fs : List Str)
      (as : List TermAlignment),
      translateChunksGo oracle TMode.professional relevantTerms chunks i so t
          rs fs as =
        translateChunksGo
          ⟨oracle.draft, oracle.reflect, oracle.improve,
            fun _ => AlignOutcome.parsedArray []⟩
          TMode.professional relevantTerms chunks i so t rs fs as := by
  intro chunks
  induction chunks with
  | nil =>
    intro i so t rs fs as
    rfl
  | cons chunk rest ih =>
    intro i so t rs fs as
    simp only [translateChunksGo]
    rcases hd : oracle.draft i with e | d
    · rfl
    · rcases hr : oracle.reflect i with e | r
      · rfl
      · rcases hp : oracle.improve i with e | p
        · rfl
        · dsimp only
          rw [alignTermsWithLLM_unparsable _ _ _ _ (hfail i),
            alignTermsWithLLM_emptyArray]
          exact ih _ _ _ _ _ _

/-- C7: a professional-mode request whose Align completion output cannot be
parsed as a JSON array of TermAlignment recovers locally.  The whole
request is identical to the same request whose Align step parsed an empty
array, and in the single-chunk case with successful draft, review and
polish steps it completes with the polished final text, the review notes,
and an empty alignment list, surfacing no error. -/
theorem align_parse_failure_recovered (oracle : StepOracle) (sourceText : Str)
    (maxTokensPerChunk : Nat) (relevantTerms : List Term)
    (hfail : ∀ i, oracle.align i = AlignOutcome.failed ∨
      oracle.align i = AlignOutcome.parsedNonArray) :
    (translateText oracle sourceText TMode.professional maxTokensPerChunk
        relevantTerms =
      translateText
        ⟨oracle.draft, oracle.reflect, oracle.improve,
          fun _ => AlignOutcome.parsedArray []⟩
        sourceText TMode.professional maxTokensPerChunk relevantTerms) ∧
    (∀ d r p, getTokenCount sourceText ≤ maxTokensPerChunk →
      oracle.draft 0 = Except.ok d → oracle.reflect 0 = Except.ok r →
      oracle.improve 0 = Except.ok p →
      translateText oracle sourceText TMode.professional maxTokensPerChunk
        relevantTerms = Except.ok ⟨p, some r, some []⟩) := by
  constructor
  · unfold translateText
    split
    · rcases hd : oracle.draft 0 with e | d
      · rfl
      · rcases hr : oracle.reflect 0 with e | r
        · rfl
        · rcases hp : oracle.improve 0 with e | p
          · rfl
          · dsimp only
            rw [alignTermsWithLLM_unparsable _ _ _ _ (hfail 0),
              alignTermsWithLLM_emptyArray]
    · rw [translateChunksGo_align_irrelevant oracle relevantTerms hfail]
  · intro d r p htok hd hr hp
    unfold translateText
    rw [if_pos htok, hd, hr, hp]
    dsimp only
    rw [alignTermsWithLLM_unparsable _ _ _ _ (hfail 0)]

theorem align_parse_failure_recovered_witness :
    translateText alignFailOracle ('x' :: []) TMode.professional 1000 [] =
      Except.ok ⟨'p' :: [], some ('r' :: []), some []⟩ :=
  (align_parse_failure_recovered alignFailOracle ('x' :: []) 1000 []
    (fun _ => Or.inl rfl)).2 ('d' :: []) ('r' :: []) ('p' :: [])
    (by decide) rfl rfl rfl

lemma appendSpansToFirst_ids (acc : List TermAlignment) (al : TermAlignment)
    (so t : Nat) :
    (appendSpansToFirst acc al so t).map (fun a => a.termId) =
      acc.map (fun a => a.termId) := by
  induction acc with
  | nil => rfl
  | cons a rest ih =>
    simp only [appendSpansToFirst]
    split
    · simp
    · simpa using ih

lemma appendSpansToFirst_lookup_ne (acc : List TermAlignment)
    (al : TermAlignment) (so tg : Nat) (t : String) (hne : al.termId ≠ t) :
    lookupAl (appendSpansToFirst acc al so tg) t = lookupAl acc t := by
  induction acc with
  | nil => rfl
  | cons a rest ih =>
    simp only [appendSpansToFirst]
    split
    next heq =>
      simp only [lookupAl, List.find?]
      have h1 : (a.termId == t) = false := by
        rw [heq]
        simpa using hne
      simp only [h1]
    next heq =>
      simp only [lookupAl, List.find?]
      cases h1 : a.termId == t
      · simpa [lookupAl] using ih
      · rfl

lemma appendSpansToFirst_lookup_eq (acc : List TermAlignment)
    (al : TermAlignment) (so tg : Nat) (a : TermAlignment)
    (ha : lookupAl acc al.termId = some a) :
    lookupAl (appendSpansToFirst acc al so tg) al.termId =
      some ⟨a.termId, a.sourceSpans ++ al.sourceSpans.map (shiftSpan so),
        a.targetSpans ++ al.targetSpans.map (shiftSpan tg)⟩ := by
  induction acc with
  | nil => simp [lookupAl, List.find?] at ha
  | cons b rest ih =>
    simp only [appendSpansToFirst]
    split
    next heq =>
      simp only [lookupAl, List.find?] at ha ⊢
      have h1 : (b.termId == al.termId) = true := by
        rw [heq]
        simp
      simp only [h1] at ha ⊢
      simp only [Option.some.injEq] at ha
      rw [← ha]
    next heq =>
      simp only [lookupAl, List.find?] at ha ⊢
      have h1 : (b.termId == al.termId) = false := by
        simpa using heq
      simp only [h1] at ha ⊢
      exact ih ha

lemma any_eq_lookup_isSome (acc : List TermAlignment) (t : String) :
    acc.any (fun a => a.termId == t) = (lookupAl acc t).isSome := by
  induction acc with
  | nil => rfl
  | cons a rest ih =>
    simp only [List.any_cons, lookupAl, List.find?]
    cases h : a.termId == t
    · simpa [lookupAl] using ih
    · rfl

lemma lookupAl_append_ne (acc : List TermAlignment) (e : TermAlignment)
    (t : String) (hne : e.termId ≠ t) :
    lookupAl (acc ++ [e]) t = lookupAl acc t := by
  unfold lookupAl
  rw [List.find?_append]
  have h0 : (e.termId == t) = false := by
    simpa using hne
  have h1 : List.find? (fun a => a.termId == t) [e] = none := by
    simp [List.find?, h0]
  rw [h1, Option.or_none]

lemma lookupAl_append_new (acc : List TermAlignment) (e : TermAlignment)
    (hnone : lookupAl acc e.termId = none) :
    lookupAl (acc ++ [e]) e.termId = some e := by
  unfold lookupAl at hnone ⊢
  rw [List.find?_append, hnone]
  simp [List.find?]

lemma mergeChunkAlignments_nil (acc : List TermAlignment) (so tg : Nat) :
    mergeChunkAlignments acc [] so tg = acc := rfl

lemma mergeChunkAlignments_cons (acc : List TermAlignment)
    (al : TermAlignment) (als : List TermAlignment) (so tg : Nat) :
    mergeChunkAlignments acc (al :: als) so tg =
      mergeChunkAlignments
        (appendSpansToFirst
          (if acc.any (fun a => a.termId == al.termId) then acc
           else acc ++ [⟨al.termId, [], []⟩]) al so tg)
        als so tg := rfl

lemma chunkSrcSpans_cons_eq (al : TermAlignment) (als : List TermAlignment)
    (so : Nat) :
    chunkSrcSpans (al :: als) al.termId so =
      al.sourceSpans.map (shiftSpan so) ++ chunkSrcSpans als al.termId so := by
  simp [chunkSrcSpans, List.filter_cons]

lemma chunkTgtSpans_cons_eq (al : TermAlignment) (als : List TermAlignment)
    (tg : Nat) :
    chunkTgtSpans (al :: als) al.termId tg =
      al.targetSpans.map (shiftSpan tg) ++ chunkTgtSpans als al.termId tg := by
  simp [chunkTgtSpans, List.filter_cons]

lemma chunkSrcSpans_cons_ne (al : TermAlignment) (als : List TermAlignment)
    (so : Nat) (t : String) (hne : al.termId ≠ t) :
    chunkSrcSpans (al :: als) t so = chunkSrcSpans als t so := by
  simp [chunkSrcSpans, List.filter_cons, hne]

lemma chunkTgtSpans_cons_ne (al : TermAlignment) (als : List TermAlignment)
    (tg : Nat) (t : String) (hne : al.termId ≠ t) :
    chunkTgtSpans (al :: als) t tg = chunkTgtSpans als t tg := by
  simp [chunkTgtSpans, List.filter_cons, hne]

lemma mergeChunkAlignments_lookup (so tg : Nat) :
    ∀ (als acc : List TermAlignment) (t : String),
      lookupAl (mergeChunkAlignments acc als so tg) t =
        match lookupAl acc t with
        | some a =>
          some ⟨a.termId, a.sourceSpans ++ chunkSrcSpans als t so,
            a.targetSpans ++ chunkTgtSpans als t tg⟩
        | none =>
          if als.any (fun al => al.termId == t) then
            some ⟨t, chunkSrcSpans als t so, chunkTgtSpans als t tg⟩
          else none := by
  intro als
  induction als with
  | nil =>
    intro acc t
    rw [mergeChunkAlignments_nil]
    rcases h : lookupAl acc t with - | a
    · simp
    · rcases a with ⟨tid, ss, ts⟩
      simp [chunkSrcSpans, chunkTgtSpans]
  | cons al als ih =>
    intro acc t
    rw [mergeChunkAlignments_cons, ih]
    by_cases hteq : al.termId = t
    · subst hteq
      rcases hacc : lookupAl acc al.termId with - | a
      · have hany : acc.any (fun a => a.termId == al.termId) = false := by
          rw [any_eq_lookup_isSome, hacc]
          rfl
        rw [if_neg (by simp [hany])]
        have hnew := lookupAl_append_new acc ⟨al.termId, [], []⟩ hacc
        have hstep := appendSpansToFirst_lookup_eq (acc ++ [⟨al.termId, [], []⟩])
          al so tg ⟨al.termId, [], []⟩ hnew
        rw [hstep]
        have hany2 : (al :: als).any (fun a => a.termId == al.termId) = true := by
          simp [List.any_cons]
        simp only [hany2, if_true]
        rw [chunkSrcSpans_cons_eq, chunkTgtSpans_cons_eq]
        simp
      · have hany : acc.any (fun a => a.termId == al.termId) = true := by
          rw [any_eq_lookup_isSome, hacc]
          rfl
        rw [if_pos hany]
        have hstep := appendSpansToFirst_lookup_eq acc al so tg a hacc
        rw [hstep]
        rw [chunkSrcSpans_cons_eq, chunkTgtSpans_cons_eq]
        simp [List.append_assoc]
    · have hacc1 : lookupAl
          (if acc.any (fun a => a.termId == al.termId) then acc
           else acc ++ [⟨al.termId, [], []⟩]) t = lookupAl acc t := by
        split
        · rfl
        · exact lookupAl_append_ne acc ⟨al.termId, [], []⟩ t hteq
      rw [appendSpansToFirst_lookup_ne _ _ _ _ _ hteq, hacc1]
      rw [chunkSrcSpans_cons_ne _ _ _ _ hteq, chunkTgtSpans_cons_ne _ _ _ _ hteq]
      have hany3 : ((al :: als).any (fun a => a.termId == t)) =
          (als.any (fun a => a.termId == t)) := by
        simp [List.any_cons, hteq]
      rw [hany3]

lemma chunkSrcSpans_of_any_false (als : List TermAlignment) (t : String)
    (so : Nat) (h : als.any (fun al => al.termId == t) = false) :
    chunkSrcSpans als t so = [] := by
  unfold chunkSrcSpans
  have h2 : als.filter (fun al => al.termId == t) = [] := by
    rw [List.filter_eq_nil_iff]
    intro a ha
    rw [List.any_eq_false] at h
    exact h a ha
  rw [h2]
  rfl

lemma chunkTgtSpans_of_any_false (als : List TermAlignment) (t : String)
    (tg : Nat) (h : als.any (fun al => al.termId == t) = false) :
    chunkTgtSpans als t tg = [] := by
  unfold chunkTgtSpans
  have h2 : als.filter (fun al => al.termId == t) = [] := by
    rw [List.filter_eq_nil_iff]
    intro a ha
    rw [List.any_eq_false] at h
    exact h a ha
  rw [h2]
  rfl

lemma mergeChunkAlignments_nodup (so tg : Nat) :
    ∀ (als acc : List TermAlignment),
      (acc.map (fun a => a.termId)).Nodup →
      ((mergeChunkAlignments acc als so tg).map (fun a => a.termId)).Nodup := by
  intro als
  induction als with
  | nil =>
    intro acc h
    simpa [mergeChunkAlignments_nil] using h
  | cons al als ih =>
    intro acc h
    rw [mergeChunkAlignments_cons]
    apply ih
    rw [appendSpansToFirst_ids]
    split
    · exact h
    next hany =>
      have hany2 : acc.any (fun a => a.termId == al.termId) = false := by
        simpa using hany
      rw [List.any_eq_false] at hany2
      rw [List.map_append]
      rw [List.nodup_append]
      refine ⟨h, by simp, ?_⟩
      intro x hx hy
      simp only [List.map_cons, List.map_nil, List.mem_singleton] at hy
      subst hy
      rw [List.mem_map] at hx
      obtain ⟨a, ha, heq⟩ := hx
      exact hany2 a ha (by simp [heq])

lemma mergeAll_lookup :
    ∀ (steps : List (List TermAlignment × Nat × Nat))
      (acc : List TermAlignment) (t : String),
      lookupAl (mergeAll acc steps) t =
        match lookupAl acc t with
        | some a =>
          some ⟨a.termId, a.sourceSpans ++ specSourceSpans steps t,
            a.targetSpans ++ specTargetSpans steps t⟩
        | none =>
          if appearsIn steps t then
            some ⟨t, specSourceSpans steps t, specTargetSpans steps t⟩
          else none := by
  intro steps
  induction steps with
  | nil =>
    intro acc t
    show lookupAl acc t = _
    rcases h : lookupAl acc t with - | a
    · simp [appearsIn]
    · rcases a with ⟨tid, ss, ts⟩
      simp [specSourceSpans, specTargetSpans]
  | cons st rest ih =>
    intro acc t
    show lookupAl (mergeAll (mergeChunkAlignments acc st.1 st.2.1 st.2.2) rest) t = _
    rw [ih, mergeChunkAlignments_lookup]
    rcases h : lookupAl acc t with - | a
    · by_cases hany : st.1.any (fun al => al.termId == t) = true
      · have happ : appearsIn (st :: rest) t = true := by
          simp [appearsIn, List.any_cons, hany]
        simp only [hany, if_true, happ]
        simp only [specSourceSpans, specTargetSpans, List.flatMap_cons]
      · have happ : appearsIn (st :: rest) t = appearsIn rest t := by
          simp [appearsIn, List.any_cons, hany]
        have e1 : specSourceSpans (st :: rest) t = specSourceSpans rest t := by
          unfold specSourceSpans
          rw [List.flatMap_cons, chunkSrcSpans_of_any_false _ _ _ (by simpa using hany)]
          simp
        have e2 : specTargetSpans (st :: rest) t = specTargetSpans rest t := by
          unfold specTargetSpans
          rw [List.flatMap_cons, chunkTgtSpans_of_any_false _ _ _ (by simpa using hany)]
          simp
        simp only [hany, Bool.false_eq_true, if_false, happ, e1, e2]
    · simp only [specSourceSpans, specTargetSpans, List.flatMap_cons]
      simp [List.append_assoc, chunkSrcSpans, chunkTgtSpans]

lemma mergeAll_nodup :
    ∀ (steps : List (List TermAlignment × Nat × Nat))
      (acc : List TermAlignment),
      (acc.map (fun a => a.termId)).Nodup →
      ((mergeAll acc steps).map (fun a => a.termId)).Nodup := by
  intro steps
  induction steps with
  | nil => intro acc h; exact h
  | cons st rest ih =>
    intro acc h
    exact ih _ (mergeChunkAlignments_nodup _ _ _ _ h)

lemma translateChunksGo_professional (oracle : StepOracle)
    (relevantTerms : List Term) (imp : Nat → Str)
    (himp : ∀ i, oracle.improve i = Except.ok (imp i))
    (hdr : ∀ i, ∃ s, oracle.draft i = Except.ok s)
    (hrf : ∀ i, ∃ s, oracle.reflect i = Except.ok s) :
    ∀ (chunks : List Str) (i so tg : Nat) (rs fs : List Str)
      (as : List TermAlignment),
      ∃ results reflections,
        translateChunksGo oracle TMode.professional relevantTerms chunks i so tg
            rs fs as =
          Except.ok (results, reflections,
            mergeAll as (stepsOf relevantTerms oracle.align imp chunks i so tg)) := by
  intro chunks
  induction chunks with
  | nil =>
    intro i so tg rs fs as
    exact ⟨rs, fs, rfl⟩
  | cons chunk rest ih =>
    intro i so tg rs fs as
    obtain ⟨d, hd⟩ := hdr i
    obtain ⟨r, hr⟩ := hrf i
    simp only [translateChunksGo, hd, hr, himp i]
    exact ih (i + 1) (so + chunk.length) (tg + (imp i).length + 2)
      (rs ++ [imp i]) (fs ++ [partLabel (i + 1) ++ r])
      (mergeChunkAlignments as
        (alignTermsWithLLM chunk (imp i) relevantTerms (oracle.align i)) so tg)

/-- C6: in every professional-mode multi-chunk request with successful
translation steps, the per-chunk alignments are merged into a single global
list: the term identifiers of the result are pairwise distinct (a recurring
identifier extends its existing entry instead of adding another), and the
entry of each identifier carries exactly the concatenation, in chunk order,
of that chunk's source spans shifted by the running source offset (which
grows by the chunk's length) and of its target spans shifted by the running
target offset (which grows by the translated chunk's length plus the
2-character separator length), as recorded by stepsOf. -/
theorem professional_multichunk_alignment_merge (oracle : StepOracle)
    (sourceText : Str) (maxTokensPerChunk : Nat) (relevantTerms : List Term)
    (imp : Nat → Str)
    (hmulti : ¬ getTokenCount sourceText ≤ maxTokensPerChunk)
    (himp : ∀ i, oracle.improve i = Except.ok (imp i))
    (hdr : ∀ i, ∃ s, oracle.draft i = Except.ok s)
    (hrf : ∀ i, ∃ s, oracle.reflect i = Except.ok s) :
    ∃ results reflections,
      translateText oracle sourceText TMode.professional maxTokensPerChunk
          relevantTerms =
        Except.ok ⟨joinWith joinSep results, some (joinWith joinSep reflections),
          some (mergeAll [] (stepsOf relevantTerms oracle.align imp
            (splitTextIntoChunks sourceText
              (calculateChunkSize (getTokenCount sourceText) maxTokensPerChunk))
            0 0 0))⟩ ∧
      ((mergeAll [] (stepsOf relevantTerms oracle.align imp
        (splitTextIntoChunks sourceText
          (calculateChunkSize (getTokenCount sourceText) maxTokensPerChunk))
        0 0 0)).map (fun a => a.termId)).Nodup ∧
      ∀ t, lookupAl (mergeAll [] (stepsOf relevantTerms oracle.align imp
          (splitTextIntoChunks sourceText
            (calculateChunkSize (getTokenCount sourceText) maxTokensPerChunk))
          0 0 0)) t =
        if appearsIn (stepsOf relevantTerms oracle.align imp
            (splitTextIntoChunks sourceText
              (calculateChunkSize (getTokenCount sourceText) maxTokensPerChunk))
            0 0 0) t then
          some ⟨t,
            specSourceSpans (stepsOf relevantTerms oracle.align imp
              (splitTextIntoChunks sourceText
                (calculateChunkSize (getTokenCount sourceText) maxTokensPerChunk))
              0 0 0) t,
            specTargetSpans (stepsOf relevantTerms oracle.align imp
              (splitTextIntoChunks sourceText
                (calculateChunkSize (getTokenCount sourceText) maxTokensPerChunk))
              0 0 0) t⟩
        else none := by
  obtain ⟨results, reflections, hgo⟩ :=
    translateChunksGo_professional oracle relevantTerms imp himp hdr hrf
      (splitTextIntoChunks sourceText
        (calculateChunkSize (getTokenCount sourceText) maxTokensPerChunk))
      0 0 0 [] [] []
  refine ⟨results, reflections, ?_, ?_, ?_⟩
  · unfold translateText
    rw [if_neg hmulti, hgo]
  · exact mergeAll_nodup _ [] (by simp)
  · intro t
    rw [mergeAll_lookup]
    rfl

theorem professional_multichunk_alignment_merge_witness :
    ∃ results reflections,
      translateText c6Oracle ('a' :: ' ' :: 'b' :: []) TMode.professional 1
          [c6Term] =
        Except.ok ⟨joinWith joinSep results, some (joinWith joinSep reflections),
          some (mergeAll [] (stepsOf [c6Term] c6Oracle.align (fun _ => 'P' :: [])
            (splitTextIntoChunks ('a' :: ' ' :: 'b' :: [])
              (calculateChunkSize (getTokenCount ('a' :: ' ' :: 'b' :: [])) 1))
            0 0 0))⟩ ∧
      ((mergeAll [] (stepsOf [c6Term] c6Oracle.align (fun _ => 'P' :: [])
        (splitTextIntoChunks ('a' :: ' ' :: 'b' :: [])
          (calculateChunkSize (getTokenCount ('a' :: ' ' :: 'b' :: [])) 1))
        0 0 0)).map (fun a => a.termId)).Nodup ∧
      ∀ t, lookupAl (mergeAll [] (stepsOf [c6Term] c6Oracle.align
          (fun _ => 'P' :: [])
          (splitTextIntoChunks ('a' :: ' ' :: 'b' :: [])
            (calculateChunkSize (getTokenCount ('a' :: ' ' :: 'b' :: [])) 1))
          0 0 0)) t =
        if appearsIn (stepsOf [c6Term] c6Oracle.align (fun _ => 'P' :: [])
            (splitTextIntoChunks ('a' :: ' ' :: 'b' :: [])
              (calculateChunkSize (getTokenCount ('a' :: ' ' :: 'b' :: [])) 1))
            0 0 0) t then
          some ⟨t,
            specSourceSpans (stepsOf [c6Term] c6Oracle.align (fun _ => 'P' :: [])
              (splitTextIntoChunks ('a' :: ' ' :: 'b' :: [])
                (calculateChunkSize (getTokenCount ('a' :: ' ' :: 'b' :: [])) 1))
              0 0 0) t,
            specTargetSpans (stepsOf [c6Term] c6Oracle.align (fun _ => 'P' :: [])
              (splitTextIntoChunks ('a' :: ' ' :: 'b' :: [])
                (calculateChunkSize (getTokenCount ('a' :: ' ' :: 'b' :: [])) 1))
              0 0 0) t⟩
        else none :=
  professional_multichunk_alignment_merge c6Oracle ('a' :: ' ' :: 'b' :: []) 1
    [c6Term] (fun _ => 'P' :: []) (by decide) (fun _ => rfl)
    (fun _ => ⟨'D' :: [], rfl⟩) (fun _ => ⟨'R' :: [], rfl⟩)
